import Mathlib

/-!
Verification of the route-optimization engine of NYC-DELIVERY-OPTIMIZER
(`client/src/lib/algorithms.ts`).

Modelling conventions:

* Numeric values (coordinates, kilometre distances, percentages) are
  rationals (`ℚ`): the algorithms apply only field operations and order
  comparisons to distances, so the JavaScript float computation is
  idealised as exact arithmetic.
* The pairwise distance `calculateDistance` (Haversine) is kept abstract:
  every algorithm takes an explicit `d : Stop → Stop → ℚ` standing for
  `fun a b => calculateDistance a.lat a.lng b.lat b.lng`.  The analytic
  facts the spec relies on (symmetry, non-negativity, `d a a = 0`) are
  supplied as hypotheses where a claim needs them, and concrete instances
  faithful to the Haversine values are used in witnesses.
* `Math.random()` is modelled as an ambient stream `g : ℕ → ℕ` together
  with a draw counter: the k-th call of `Math.floor(Math.random() * b)`
  yields `g k % b`, and the k-th test `Math.random() < 0.1` yields
  `g k % 10 = 0`.  Quantifying over `g` covers every sequence of draws
  the JavaScript can make.
* A JavaScript division whose divisor is `0` produces `NaN`/`Infinity`;
  the `improvement` field is therefore modelled as `Option ℚ`, `none`
  standing for the non-finite result of a zero divisor.
-/

/-- `interface Stop { id: string; lat: number; lng: number }`. -/
structure Stop where
  id : String
  lat : ℚ
  lng : ℚ
deriving DecidableEq, Repr, Inhabited

/-- `interface OptimizationResult { stops: Stop[]; distance: number; improvement: number }`.
`improvement` is `Option ℚ`: `none` models the non-finite value produced by a
zero-divisor division (see module comment). -/
structure OptimizationResult where
  stops : List Stop
  distance : ℚ
  improvement : Option ℚ
deriving DecidableEq, Repr

/-- `stops[i]` (JavaScript array indexing; all indices used by the algorithms
are in bounds, the default is never consulted there). -/
def stopAt (stops : List Stop) (i : ℕ) : Stop :=
  stops.getD i default

/-- The distance of the consecutive pairs of a route: the `for` loop of
`calculateRouteDistance` (`total += calculateDistance(stops[i], stops[i+1])`
for `i = 0 .. length-2`). -/
def pathDist (d : Stop → Stop → ℚ) : List Stop → ℚ
  | [] => 0
  | [_] => 0
  | a :: b :: rest => d a b + pathDist d (b :: rest)

/-- The last element of `a :: l` (`stops[stops.length - 1]`). -/
def lastStop (a : Stop) : List Stop → Stop
  | [] => a
  | b :: rest => lastStop b rest

/-- `calculateRouteDistance`: `0` if fewer than 2 stops, otherwise the sum of
consecutive distances plus the closing edge back to the start. -/
def calculateRouteDistance (d : Stop → Stop → ℚ) (stops : List Stop) : ℚ :=
  match stops with
  | [] => 0
  | [_] => 0
  | a :: b :: rest => pathDist d (a :: b :: rest) + d (lastStop a (b :: rest)) a

/-- `((baseline - distance) / baseline) * 100`, the `improvement` expression of
`twoOpt` and `geneticAlgorithm`.  The source divides with no zero guard; a zero
baseline makes the JavaScript result non-finite (`NaN`), modelled as `none`. -/
def percentImprovement (baseline distance : ℚ) : Option ℚ :=
  if baseline = 0 then none else some ((baseline - distance) / baseline * 100)

/-- One `Math.floor(Math.random() * bound)` draw, taken from the ambient
stream at position `ctr`.  Every `bound` used by the source is positive. -/
def draw (g : ℕ → ℕ) (ctr : ℕ) (bound : ℕ) : ℕ :=
  g ctr % bound

/-! ## Nearest Neighbor -/

/-- The `unvisited.forEach` scan of `nearestNeighbor`: fold over the unvisited
indices keeping `(nearest, minDist)`.  The initial JavaScript state
`nearest = -1, minDist = Infinity` is modelled as `none`: the first candidate
always satisfies `dist < Infinity` and is always taken. -/
def scanMin (d : Stop → Stop → ℚ) (stops : List Stop) (current : ℕ) :
    Option (ℕ × ℚ) → List ℕ → Option (ℕ × ℚ)
  | best, [] => best
  | best, idx :: rest =>
    let dist := d (stopAt stops current) (stopAt stops idx)
    match best with
    | none => scanMin d stops current (some (idx, dist)) rest
    | some b =>
      if dist < b.2 then scanMin d stops current (some (idx, dist)) rest
      else scanMin d stops current (some b) rest

/-- The `while (unvisited.size > 0)` loop of `nearestNeighbor`, returning the
route after the fixed starting index.  The JavaScript `Set` iterates in
insertion order, so `unvisited` is the list of remaining indices in ascending
order and deletion is `List.erase`.  Each iteration removes one index, so
`fuel = unvisited.length` runs the loop to completion. -/
def nnBuild (d : Stop → Stop → ℚ) (stops : List Stop) :
    ℕ → ℕ → List ℕ → List ℕ
  | 0, _, _ => []
  | fuel + 1, current, unvisited =>
    match scanMin d stops current none unvisited with
    | none => []
    | some (idx, _) => idx :: nnBuild d stops fuel idx (unvisited.erase idx)

/-- `nearestNeighbor`. -/
def nearestNeighbor (d : Stop → Stop → ℚ) (stops : List Stop) :
    OptimizationResult :=
  if stops.length < 2 then ⟨stops, 0, some 0⟩
  else
    let route := 0 :: nnBuild d stops (stops.length - 1) 0
      ((List.range stops.length).erase 0)
    let optimizedStops := route.map (stopAt stops)
    ⟨optimizedStops, calculateRouteDistance d optimizedStops, some 0⟩

/-! ## 2-Opt -/

/-- The in-place two-pointer reversal of `route[s .. e]` performed by `twoOpt`
on an accepted exchange (`left = i + 1`, `right = j`). -/
def reverseSegment (route : List ℕ) (s e : ℕ) : List ℕ :=
  route.take s ++ ((route.drop s).take (e + 1 - s)).reverse ++ route.drop (e + 1)

/-- The body of the inner `j` loop of `twoOpt`: compare the current edge pair
`(a,b), (c,d)` with the exchanged pair `(a,c), (b,d)` and reverse
`route[i+1 .. j]` on strict improvement.  The accumulator carries the current
route and the `improved` flag. -/
def twoOptStep (d : Stop → Stop → ℚ) (stops : List Stop) (i : ℕ)
    (acc : List ℕ × Bool) (j : ℕ) : List ℕ × Bool :=
  let route := acc.1
  let a := route.getD i 0
  let b := route.getD (i + 1) 0
  let c := route.getD j 0
  let e := route.getD ((j + 1) % route.length) 0
  let currentDist := d (stopAt stops a) (stopAt stops b) +
    d (stopAt stops c) (stopAt stops e)
  let newDist := d (stopAt stops a) (stopAt stops c) +
    d (stopAt stops b) (stopAt stops e)
  if newDist < currentDist then (reverseSegment route (i + 1) j, true)
  else acc

/-- One pass of the nested `for` loops of `twoOpt`
(`i = 0 .. n-3`, `j = i+2 .. n-1`), threading the mutated route and the
`improved` flag through subsequent pairs (the route length is invariant, so
the live `route.length` bounds equal those taken from the initial route). -/
def twoOptPass (d : Stop → Stop → ℚ) (stops : List Stop) (route0 : List ℕ) :
    List ℕ × Bool :=
  (List.range (route0.length - 2)).foldl
    (fun acc i =>
      (List.range' (i + 2) (route0.length - (i + 2))).foldl
        (twoOptStep d stops i) acc)
    (route0, false)

/-- The `while (improved && iteration < maxIterations)` loop of `twoOpt`:
run a pass; stop when the pass accepted no exchange or the cap is reached. -/
def twoOptLoop (d : Stop → Stop → ℚ) (stops : List Stop) :
    ℕ → List ℕ → List ℕ
  | 0, route => route
  | fuel + 1, route =>
    let pr := twoOptPass d stops route
    if pr.2 then twoOptLoop d stops fuel pr.1 else pr.1

/-- `twoOpt`.  Note the source's seeding line
`let route = nnResult.stops.map((s, i) => i)` evaluates to the identity
permutation `[0, ..., n-1]` (the callback returns the index), so the search
starts from the input order; the nearest-neighbor result is used only for the
`improvement` baseline. -/
def twoOpt (d : Stop → Stop → ℚ) (stops : List Stop)
    (maxIterations : ℕ) : OptimizationResult :=
  if stops.length < 4 then nearestNeighbor d stops
  else
    let nnResult := nearestNeighbor d stops
    let route := twoOptLoop d stops maxIterations (List.range stops.length)
    let optimizedStops := route.map (stopAt stops)
    let distance := calculateRouteDistance d optimizedStops
    let nnDistance := calculateRouteDistance d nnResult.stops
    ⟨optimizedStops, distance, percentImprovement nnDistance distance⟩

/-! ## Genetic algorithm -/

/-- The destructuring swap `[route[i], route[k]] = [route[k], route[i]]`:
read both old values, then write both cells. -/
def swapIdx (route : List ℕ) (i k : ℕ) : List ℕ :=
  let a := route.getD i 0
  let b := route.getD k 0
  (route.set i b).set k a

/-- The Fisher–Yates shuffle loop of the population initialiser
(`for (j = route.length - 1; j > 0; j--) swap(j, floor(random()*(j+1)))`),
structurally recursing on the descending loop counter `j`. -/
def fyShuffle (g : ℕ → ℕ) : ℕ → List ℕ → ℕ → List ℕ × ℕ
  | 0, route, ctr => (route, ctr)
  | j + 1, route, ctr =>
    let k := draw g ctr (j + 2)
    fyShuffle g j (swapIdx route (j + 1) k) (ctr + 1)

/-- The initial-population loop: `populationSize` independent shuffles of
`[0, ..., n-1]`, threading the draw counter. -/
def initPopulation (g : ℕ → ℕ) (n : ℕ) : ℕ → ℕ → List (List ℕ) × ℕ
  | 0, ctr => ([], ctr)
  | count + 1, ctr =>
    let rc := fyShuffle g (n - 1) (List.range n) ctr
    let rest := initPopulation g n count rc.2
    (rc.1 :: rest.1, rest.2)

/-- `fitness[idx1] > fitness[idx2] ? population[idx1] : population[idx2]`:
the 2-way tournament keeps the first candidate only on a strictly greater
fitness, so a tie selects the second candidate. -/
def tournamentPick (fitness : List ℚ) (population : List (List ℕ))
    (idx1 idx2 : ℕ) : List ℕ :=
  if fitness.getD idx2 0 < fitness.getD idx1 0 then population.getD idx1 []
  else population.getD idx2 []

/-- The fill loop of `orderCrossover` (`while (childIdx !== a)`), consuming
the parent-2 genes in scan order.  `-1` cells are modelled as `none`.  The
JavaScript scan cursor wraps indefinitely; when both parents are permutations
the loop finishes within one full cycle of parent 2 (proved below), so the
scan list is that single cycle — on inputs where the cycle is insufficient
the JavaScript loop never terminates. -/
def oxFill (a size : ℕ) :
    List (Option ℕ) → ℕ → List ℕ → List (Option ℕ)
  | child, _, [] => child
  | child, childIdx, x :: rest =>
    if childIdx = a then child
    else if child.contains (some x) then oxFill a size child childIdx rest
    else oxFill a size (child.set childIdx (some x)) ((childIdx + 1) % size) rest

/-- `orderCrossover`: draw two cut positions, normalise them to `a ≤ b`, copy
`parent1[a..b]` into the child, then fill the remaining cells from `parent2`
starting at `(b+1) % size` in both cursors.  Unfilled cells (JavaScript `-1`)
are mapped to `0` at the end; none remain when the parents are permutations
(proved below). -/
def orderCrossover (g : ℕ → ℕ) (ctr : ℕ) (parent1 parent2 : List ℕ) :
    List ℕ × ℕ :=
  let size := parent1.length
  let start := draw g ctr size
  let stop := draw g (ctr + 1) size
  let a := if start < stop then start else stop
  let b := if start < stop then stop else start
  let child0 := (List.range size).map
    (fun i => if a ≤ i ∧ i ≤ b then some (parent1.getD i 0) else none)
  let child := oxFill a size child0 ((b + 1) % size)
    (parent2.rotate ((b + 1) % size))
  ((child.map (fun c => c.getD 0)), ctr + 2)

/-- `mutate`: swap two uniformly drawn positions of the route. -/
def mutateRoute (g : ℕ → ℕ) (ctr : ℕ) (route : List ℕ) : List ℕ × ℕ :=
  let i := draw g ctr route.length
  let j := draw g (ctr + 1) route.length
  (swapIdx route i j, ctr + 2)

/-- One child of the breeding loop: two independent 2-way tournaments, order
crossover, then swap mutation with probability 0.1
(`Math.random() < 0.1` is the draw `g ctr % 10 = 0`). -/
def gaChild (g : ℕ → ℕ) (population : List (List ℕ)) (fitness : List ℚ)
    (populationSize ctr : ℕ) : List ℕ × ℕ :=
  let idx1 := draw g ctr populationSize
  let idx2 := draw g (ctr + 1) populationSize
  let parent1 := tournamentPick fitness population idx1 idx2
  let idx3 := draw g (ctr + 2) populationSize
  let idx4 := draw g (ctr + 3) populationSize
  let parent2 := tournamentPick fitness population idx3 idx4
  let cc := orderCrossover g (ctr + 4) parent1 parent2
  if draw g cc.2 10 = 0 then mutateRoute g (cc.2 + 1) cc.1
  else (cc.1, cc.2 + 1)

/-- The `for (i = 0; i < populationSize; i++)` breeding loop, building the
new population in order. -/
def gaChildren (g : ℕ → ℕ) (population : List (List ℕ)) (fitness : List ℚ)
    (populationSize : ℕ) : ℕ → ℕ → List (List ℕ) × ℕ
  | 0, ctr => ([], ctr)
  | count + 1, ctr =>
    let ch := gaChild g population fitness populationSize ctr
    let rest := gaChildren g population fitness populationSize count ch.2
    (ch.1 :: rest.1, rest.2)

/-- The fitness of a chromosome: `1 / (routeDistance + 0.1)`. -/
def gaFitness (d : Stop → Stop → ℚ) (stops : List Stop) (route : List ℕ) : ℚ :=
  1 / (calculateRouteDistance d (route.map (stopAt stops)) + 1 / 10)

/-- The generation loop (`for (gen = 0; gen < generations; gen++)`): compute
the fitness of the current population, breed a same-size replacement, repeat. -/
def gaLoop (d : Stop → Stop → ℚ) (g : ℕ → ℕ) (stops : List Stop)
    (populationSize : ℕ) : ℕ → List (List ℕ) → ℕ → List (List ℕ) × ℕ
  | 0, population, ctr => (population, ctr)
  | gens + 1, population, ctr =>
    let fitness := population.map (gaFitness d stops)
    let nc := gaChildren g population fitness populationSize populationSize ctr
    gaLoop d g stops populationSize gens nc.1 nc.2

/-- `Math.min(...list)` (the source spreads the final distance list; the
empty case — JavaScript `Infinity` — is unreachable for a positive population
size and is given the placeholder `0`). -/
def minOfList : List ℚ → ℚ
  | [] => 0
  | x :: xs => xs.foldl min x

/-- `geneticAlgorithm`. After the generation loop, the final distances are
recomputed, the first chromosome attaining the minimum distance is selected
(`fitness.indexOf(Math.min(...fitness))`), and the improvement is reported
against a freshly computed nearest-neighbor baseline. -/
def geneticAlgorithm (d : Stop → Stop → ℚ) (g : ℕ → ℕ) (ctr : ℕ)
    (stops : List Stop) (populationSize generations : ℕ) :
    OptimizationResult :=
  if stops.length < 4 then nearestNeighbor d stops
  else
    let ip := initPopulation g stops.length populationSize ctr
    let fp := gaLoop d g stops populationSize generations ip.1 ip.2
    let finalPop := fp.1
    let distances := finalPop.map
      (fun route => calculateRouteDistance d (route.map (stopAt stops)))
    let bestIdx := List.indexOf (minOfList distances) distances
    let bestRoute := finalPop.getD bestIdx []
    let optimizedStops := bestRoute.map (stopAt stops)
    let distance := calculateRouteDistance d optimizedStops
    let nnDistance := calculateRouteDistance d (nearestNeighbor d stops).stops
    ⟨optimizedStops, distance, percentImprovement nnDistance distance⟩

/-! ## Comparator -/

/-- Ascending insertion by the `distance` field: the effect of
`Array.prototype.sort((a, b) => a.distance - b.distance)` on the three-element
result array (ties keep the earlier element first, as the stable JS sort does). -/
def insertByDistance (r : OptimizationResult) :
    List OptimizationResult → List OptimizationResult
  | [] => [r]
  | x :: xs =>
    if r.distance ≤ x.distance then r :: x :: xs
    else x :: insertByDistance r xs

/-- Sort a result list ascending by `distance`. -/
def sortByDistance : List OptimizationResult → List OptimizationResult
  | [] => []
  | x :: xs => insertByDistance x (sortByDistance xs)

/-- `compareAlgorithms`: run the three algorithms at their default parameters
(2-Opt cap 100, population 50, generations 100) and sort the results
ascending by distance. -/
def compareAlgorithms (d : Stop → Stop → ℚ) (g : ℕ → ℕ) (ctr : ℕ)
    (stops : List Stop) : List OptimizationResult :=
  let nn := nearestNeighbor d stops
  let opt2 := twoOpt d stops 100
  let ga := geneticAlgorithm d g ctr stops 50 100
  sortByDistance [opt2, ga, nn]

/-! ## List helper lemmas -/

theorem count_set_add {α : Type} [DecidableEq α] (l : List α) (i : ℕ)
    (v x : α) (h : i < l.length) :
    (l.set i v).count x + (if l[i] = x then 1 else 0) =
      l.count x + (if v = x then 1 else 0) := by
  induction l generalizing i with
  | nil => simp at h
  | cons a t ih =>
    cases i with
    | zero =>
      simp only [List.set_cons_zero, List.getElem_cons_zero, List.count_cons]
      by_cases hax : a = x <;> by_cases hvx : v = x <;>
        simp [hax, hvx] <;> omega
    | succ n =>
      have hn : n < t.length := by simpa using h
      simp only [List.set_cons_succ, List.getElem_cons_succ, List.count_cons]
      have := ih n hn
      by_cases hax : a = x <;> simp [hax] <;> omega

theorem count_set_add_opt (l : List (Option ℕ)) (i : ℕ) (v x : Option ℕ)
    (h : i < l.length) :
    (l.set i v).count x + (if l[i] = x then 1 else 0) =
      l.count x + (if v = x then 1 else 0) := by
  induction l generalizing i with
  | nil => simp at h
  | cons a t ih =>
    cases i with
    | zero =>
      simp only [List.set_cons_zero, List.getElem_cons_zero, List.count_cons]
      by_cases hax : a = x <;> by_cases hvx : v = x <;>
        simp [hax, hvx] <;> omega
    | succ n =>
      have hn : n < t.length := by simpa using h
      simp only [List.set_cons_succ, List.getElem_cons_succ, List.count_cons]
      have := ih n hn
      by_cases hax : a = x <;> simp [hax] <;> omega

theorem getD_set_self {α : Type} [DecidableEq α] (l : List α) (i : ℕ)
    (v w : α) (h : i < l.length) : (l.set i v).getD i w = v := by
  rw [List.getD_eq_getElem _ _ (by simpa using h)]
  exact List.getElem_set_self _

theorem getD_set_ne {α : Type} [DecidableEq α] (l : List α) (i j : ℕ)
    (v w : α) (hij : i ≠ j) (h : j < l.length) :
    (l.set i v).getD j w = l.getD j w := by
  rw [List.getD_eq_getElem _ _ (by simpa using h),
    List.getD_eq_getElem _ _ h]
  exact List.getElem_set_ne hij _

theorem swapIdx_perm (l : List ℕ) (i k : ℕ) (hi : i < l.length)
    (hk : k < l.length) : (swapIdx l i k).Perm l := by
  rw [List.perm_iff_count]
  intro x
  have hgi : l.getD i 0 = l[i] := List.getD_eq_getElem l 0 hi
  have hgk : l.getD k 0 = l[k] := List.getD_eq_getElem l 0 hk
  have hgoal : swapIdx l i k = (l.set i l[k]).set k l[i] := by
    simp only [swapIdx, hgi, hgk]
  rw [hgoal]
  have hk' : k < (l.set i l[k]).length := by simpa using hk
  have h1 := count_set_add (l.set i l[k]) k (l[i]) x hk'
  have h2 := count_set_add l i (l[k]) x hi
  by_cases hik : i = k
  · subst hik
    have hset : (l.set i l[i])[i] = l[i] := List.getElem_set_self _
    rw [hset] at h1
    omega
  · have hset : (l.set i l[k])[k] = l[k] := List.getElem_set_ne hik _
    rw [hset] at h1
    split_ifs at h1 h2 <;> omega

theorem swapIdx_length (l : List ℕ) (i k : ℕ) :
    (swapIdx l i k).length = l.length := by
  simp [swapIdx]

theorem map_getD_range {α : Type} (l : List α) (d₀ : α) :
    (List.range l.length).map (fun i => l.getD i d₀) = l := by
  induction l with
  | nil => simp
  | cons a t ih =>
    rw [List.length_cons, List.range_succ_eq_map, List.map_cons,
      List.map_map]
    simp only [List.getD_cons_zero]
    have hmap : (List.range t.length).map
        ((fun i => (a :: t).getD i d₀) ∘ Nat.succ) =
        (List.range t.length).map (fun i => t.getD i d₀) := by
      apply List.map_congr_left
      intro i _
      simp [Function.comp]
    rw [hmap, ih]

theorem map_stopAt_range (stops : List Stop) :
    (List.range stops.length).map (stopAt stops) = stops :=
  map_getD_range stops default

theorem reverseSegment_perm (l : List ℕ) (s e : ℕ) (h : s ≤ e + 1) :
    (reverseSegment l s e).Perm l := by
  unfold reverseSegment
  have hsplit : l = l.take s ++ ((l.drop s).take (e + 1 - s) ++ l.drop (e + 1)) := by
    conv_lhs => rw [← List.take_append_drop s l]
    congr 1
    conv_lhs => rw [← List.take_append_drop (e + 1 - s) (l.drop s)]
    congr 1
    rw [List.drop_drop]
    congr 1
    omega
  rw [List.append_assoc]
  conv_rhs => rw [hsplit]
  exact ((List.reverse_perm _).append_right _).append_left _

theorem reverseSegment_length (l : List ℕ) (s e : ℕ) (h : s ≤ e + 1) :
    (reverseSegment l s e).length = l.length :=
  (reverseSegment_perm l s e h).length_eq

/-! ## Nearest-neighbor lemmas -/

theorem scanMin_none_nil (d : Stop → Stop → ℚ) (stops : List Stop)
    (cur : ℕ) (best : Option (ℕ × ℚ)) :
    scanMin d stops cur best [] = best := rfl

theorem scanMin_isSome (d : Stop → Stop → ℚ) (stops : List Stop) (cur : ℕ)
    (l : List ℕ) (best : Option (ℕ × ℚ))
    (h : best ≠ none ∨ l ≠ []) :
    scanMin d stops cur best l ≠ none := by
  induction l generalizing best with
  | nil =>
    rcases h with h | h
    · simpa [scanMin] using h
    · simp at h
  | cons x rest ih =>
    cases best with
    | none =>
      simp only [scanMin]
      exact ih _ (Or.inl (by simp))
    | some b =>
      simp only [scanMin]
      split <;> exact ih _ (Or.inl (by simp))

theorem scanMin_mem (d : Stop → Stop → ℚ) (stops : List Stop) (cur : ℕ)
    (l : List ℕ) (best : Option (ℕ × ℚ)) (i : ℕ) (m : ℚ)
    (h : scanMin d stops cur best l = some (i, m)) :
    best = some (i, m) ∨ i ∈ l := by
  induction l generalizing best with
  | nil => simp [scanMin] at h; simp [h]
  | cons x rest ih =>
    cases best with
    | none =>
      simp only [scanMin] at h
      rcases ih _ h with h' | h'
      · right; simp at h'; simp [h'.1]
      · right; simp [h']
    | some b =>
      simp only [scanMin] at h
      split at h
      · rcases ih _ h with h' | h'
        · right; simp at h'; simp [h'.1]
        · right; simp [h']
      · rcases ih _ h with h' | h'
        · left; simpa using h'
        · right; simp [h']

theorem nnBuild_perm (d : Stop → Stop → ℚ) (stops : List Stop) :
    ∀ (fuel cur : ℕ) (unvisited : List ℕ),
      unvisited.length ≤ fuel →
      (nnBuild d stops fuel cur unvisited).Perm unvisited := by
  intro fuel
  induction fuel with
  | zero =>
    intro cur unvisited h
    have : unvisited = [] := List.length_eq_zero.mp (Nat.le_zero.mp h)
    simp [this, nnBuild]
  | succ f ih =>
    intro cur unvisited h
    cases hu : unvisited with
    | nil => simp [nnBuild, scanMin]
    | cons x rest =>
      have hne : scanMin d stops cur none (x :: rest) ≠ none :=
        scanMin_isSome d stops cur (x :: rest) none (Or.inr (by simp))
      rcases ho : scanMin d stops cur none (x :: rest) with _ | ⟨i, m⟩
      · exact absurd ho hne
      · have hmem : i ∈ x :: rest := by
          rcases scanMin_mem d stops cur (x :: rest) none i m ho with h' | h'
          · simp at h'
          · exact h'
        have hlen : ((x :: rest).erase i).length ≤ f := by
          rw [List.length_erase_of_mem hmem]
          have : (x :: rest).length ≤ f + 1 := by rw [← hu]; exact h
          simp at this ⊢
          omega
        have hperm := ih i ((x :: rest).erase i) hlen
        have heq : nnBuild d stops (f + 1) cur (x :: rest) =
            i :: nnBuild d stops f i ((x :: rest).erase i) := by
          simp [nnBuild, ho]
        rw [heq]
        exact (hperm.cons i).trans (List.perm_cons_erase hmem).symm

theorem nearestNeighbor_perm (d : Stop → Stop → ℚ) (stops : List Stop) :
    (nearestNeighbor d stops).stops.Perm stops := by
  unfold nearestNeighbor
  split
  · exact List.Perm.refl _
  · rename_i hlen
    have h2 : 2 ≤ stops.length := by omega
    have h0mem : 0 ∈ List.range stops.length := by
      simp; omega
    have herase : ((List.range stops.length).erase 0).length ≤ stops.length - 1 := by
      rw [List.length_erase_of_mem h0mem, List.length_range]
    have hb := nnBuild_perm d stops (stops.length - 1) 0
      ((List.range stops.length).erase 0) herase
    have hroute : (0 :: nnBuild d stops (stops.length - 1) 0
        ((List.range stops.length).erase 0)).Perm (List.range stops.length) :=
      (hb.cons 0).trans (List.perm_cons_erase h0mem).symm
    simpa [map_stopAt_range] using (hroute.map (stopAt stops)).symm.symm

/-! ## 2-opt permutation lemmas -/

theorem twoOptStep_perm (d : Stop → Stop → ℚ) (stops : List Stop) (i : ℕ)
    (acc : List ℕ × Bool) (j : ℕ) (hij : i ≤ j) :
    (twoOptStep d stops i acc j).1.Perm acc.1 := by
  simp only [twoOptStep]
  split
  · exact reverseSegment_perm acc.1 (i + 1) j (by omega)
  · exact List.Perm.refl _

theorem foldl_twoOptStep_perm (d : Stop → Stop → ℚ) (stops : List Stop)
    (i : ℕ) : ∀ (js : List ℕ) (acc : List ℕ × Bool),
    (∀ j ∈ js, i ≤ j) →
    ((js.foldl (twoOptStep d stops i) acc).1).Perm acc.1 := by
  intro js
  induction js with
  | nil => intro acc _; exact List.Perm.refl _
  | cons j rest ih =>
    intro acc hj
    exact (ih (twoOptStep d stops i acc j)
        (fun x hx => hj x (List.mem_cons_of_mem _ hx))).trans
      (twoOptStep_perm d stops i acc j (hj j (List.mem_cons_self _ _)))

theorem twoOptPass_perm (d : Stop → Stop → ℚ) (stops : List Stop)
    (route : List ℕ) : (twoOptPass d stops route).1.Perm route := by
  unfold twoOptPass
  generalize (List.range (route.length - 2)) = is
  suffices h : ∀ (is : List ℕ) (acc : List ℕ × Bool),
      ((is.foldl (fun acc i =>
        (List.range' (i + 2) (route.length - (i + 2))).foldl
          (twoOptStep d stops i) acc) acc).1).Perm acc.1 by
    exact h is (route, false)
  intro is
  induction is with
  | nil => intro acc; exact List.Perm.refl _
  | cons i rest ih =>
    intro acc
    refine (ih _).trans (foldl_twoOptStep_perm d stops i _ acc ?_)
    intro j hj
    have := List.mem_range'_1.mp hj
    omega

theorem twoOptLoop_perm (d : Stop → Stop → ℚ) (stops : List Stop) :
    ∀ (fuel : ℕ) (route : List ℕ),
    (twoOptLoop d stops fuel route).Perm route := by
  intro fuel
  induction fuel with
  | zero => intro route; exact List.Perm.refl _
  | succ f ih =>
    intro route
    simp only [twoOptLoop]
    split
    · exact (ih _).trans (twoOptPass_perm d stops route)
    · exact twoOptPass_perm d stops route

theorem twoOpt_perm (d : Stop → Stop → ℚ) (stops : List Stop)
    (maxIterations : ℕ) :
    (twoOpt d stops maxIterations).stops.Perm stops := by
  unfold twoOpt
  split
  · exact nearestNeighbor_perm d stops
  · have hroute := twoOptLoop_perm d stops maxIterations
      (List.range stops.length)
    simpa [map_stopAt_range] using (hroute.map (stopAt stops)).symm.symm

/-! ## Arithmetic and counting helpers -/

theorem mod_sub_of_lt_two_mul (m n : ℕ) (h1 : n ≤ m) (h2 : m < 2 * n) :
    m % n = m - n := by
  have hn : 0 < n := by omega
  rw [Nat.mod_eq_sub_mod h1, Nat.mod_eq_of_lt (by omega)]

theorem mod_add_ne_self (c t n : ℕ) (hc : c < n) (ht0 : 0 < t) (htn : t < n) :
    (c + t) % n ≠ c := by
  intro h
  by_cases hlt : c + t < n
  · rw [Nat.mod_eq_of_lt hlt] at h
    omega
  · rw [mod_sub_of_lt_two_mul _ _ (by omega) (by omega)] at h
    omega

theorem countP_not_add (p : ℕ → Bool) (l : List ℕ) :
    l.countP p + l.countP (fun x => !p x) = l.length := by
  induction l with
  | nil => simp
  | cons a t ih =>
    by_cases h : p a <;>
      simp [List.countP_cons, h] <;> omega

theorem countP_not_add_opt (p : Option ℕ → Bool) (l : List (Option ℕ)) :
    l.countP p + l.countP (fun x => !p x) = l.length := by
  induction l with
  | nil => simp
  | cons a t ih =>
    by_cases h : p a <;>
      simp [List.countP_cons, h] <;> omega

/-- The number of indices of `range n` lying in the closed interval
`[a, b]`. -/
theorem countP_range_interval (n a b : ℕ) :
    (List.range n).countP (fun i => decide (a ≤ i ∧ i ≤ b)) =
      min (b + 1) n - min a n := by
  induction n with
  | zero => simp
  | succ m ih =>
    rw [List.range_succ, List.countP_append, ih]
    by_cases h : a ≤ m ∧ m ≤ b <;> simp [h] <;> omega

/-- Counting occurrences through positions: the number of indices of
`range l.length` whose cell equals `z` is the count of `z`. -/
theorem countP_getD_range (l : List ℕ) (z : ℕ) :
    (List.range l.length).countP (fun i => decide (l.getD i 0 = z)) =
      l.count z := by
  induction l with
  | nil => simp
  | cons a t ih =>
    rw [List.length_cons, List.range_succ_eq_map, List.countP_cons,
      List.countP_map]
    have hcomp : (List.range t.length).countP
        ((fun i => decide ((a :: t).getD i 0 = z)) ∘ Nat.succ) =
        (List.range t.length).countP (fun i => decide (t.getD i 0 = z)) := by
      apply List.countP_congr
      intro i _
      simp [Function.comp]
    rw [hcomp, ih, List.count_cons]
    by_cases h : a = z <;> simp [h] <;> omega

theorem count_range_eq (n z : ℕ) :
    (List.range n).count z = if z < n then 1 else 0 := by
  split
  · rename_i h
    have hmem : z ∈ List.range n := List.mem_range.mpr h
    have h1 : 1 ≤ (List.range n).count z := List.count_pos_iff.mpr hmem
    have h2 : (List.range n).count z ≤ 1 :=
      List.nodup_iff_count_le_one.mp (List.nodup_range n) z
    omega
  · rename_i h
    exact List.count_eq_zero.mpr (by simpa using h)

/-! ## Genetic-algorithm permutation lemmas -/

theorem fyShuffle_perm (g : ℕ → ℕ) :
    ∀ (j : ℕ) (route : List ℕ) (ctr : ℕ),
      (j < route.length ∨ j = 0) →
      (fyShuffle g j route ctr).1.Perm route := by
  intro j
  induction j with
  | zero => intro route ctr _; exact List.Perm.refl _
  | succ j ih =>
    intro route ctr h
    have hj1 : j + 1 < route.length := by omega
    have hk : draw g ctr (j + 2) < route.length := by
      have hm : g ctr % (j + 2) < j + 2 := Nat.mod_lt _ (by omega)
      simp only [draw]
      omega
    have hswap := swapIdx_perm route (j + 1) (draw g ctr (j + 2)) hj1 hk
    have hlen : (swapIdx route (j + 1) (draw g ctr (j + 2))).length =
        route.length := swapIdx_length _ _ _
    have hrec := ih (swapIdx route (j + 1) (draw g ctr (j + 2))) (ctr + 1)
      (Or.inl (by omega))
    exact hrec.trans hswap

theorem initPopulation_mem_perm (g : ℕ → ℕ) (n : ℕ) :
    ∀ (count ctr : ℕ) (r : List ℕ),
      r ∈ (initPopulation g n count ctr).1 → r.Perm (List.range n) := by
  intro count
  induction count with
  | zero => intro ctr r h; simp [initPopulation] at h
  | succ c ih =>
    intro ctr r h
    simp only [initPopulation, List.mem_cons] at h
    rcases h with h | h
    · subst h
      apply fyShuffle_perm
      rw [List.length_range]
      omega
    · exact ih _ r h

theorem initPopulation_length (g : ℕ → ℕ) (n : ℕ) :
    ∀ (count ctr : ℕ), (initPopulation g n count ctr).1.length = count := by
  intro count
  induction count with
  | zero => intro ctr; simp [initPopulation]
  | succ c ih => intro ctr; simp [initPopulation, ih]

theorem tournamentPick_mem (fitness : List ℚ) (population : List (List ℕ))
    (idx1 idx2 : ℕ) (h1 : idx1 < population.length)
    (h2 : idx2 < population.length) :
    tournamentPick fitness population idx1 idx2 ∈ population := by
  unfold tournamentPick
  split
  · rw [List.getD_eq_getElem _ _ h1]
    exact List.getElem_mem _
  · rw [List.getD_eq_getElem _ _ h2]
    exact List.getElem_mem _

/-! ## Order crossover: the fill loop preserves this invariant.

`u := child.count none` cells are still unfilled; they are exactly the `u`
cyclically consecutive positions starting at `childIdx`, ending just before
the segment start `a`; cell `a` is always filled; every filled gene is
`< n` and occurs at most once; the remaining scan still offers at least `u`
genes that are not yet in the child. -/

structure OxInv (n a : ℕ) (child : List (Option ℕ)) (childIdx : ℕ)
    (rest : List ℕ) : Prop where
  hlen : child.length = n
  ha : a < n
  hidx : childIdx < n
  hseg : child.getD a none ≠ none
  hnone : ∀ s, s < child.count none →
    child.getD ((childIdx + s) % n) none = none
  hpos : (childIdx + child.count none) % n = a
  hbound : ∀ x : ℕ, some x ∈ child → x < n
  hcount : ∀ x : ℕ, child.count (some x) ≤ 1
  hnodup : rest.Nodup
  hrest : ∀ y ∈ rest, y < n
  havail : child.count none ≤
    (rest.filter (fun y => !(child.contains (some y)))).length

/-- What holds of the child when the fill loop finishes: full, genes `< n`,
no duplicates. -/
structure OxDone (n : ℕ) (child : List (Option ℕ)) : Prop where
  hlen : child.length = n
  hnone : child.count none = 0
  hcount : ∀ x : ℕ, child.count (some x) ≤ 1
  hbound : ∀ x : ℕ, some x ∈ child → x < n

theorem count_none_lt (n a : ℕ) (child : List (Option ℕ))
    (hlen : child.length = n) (ha : a < n)
    (hseg : child.getD a none ≠ none) : child.count none < n := by
  have hle : child.count none ≤ n := hlen ▸ List.count_le_length _ _
  rcases Nat.lt_or_ge (child.count none) n with h | h
  · exact h
  · exfalso
    have heq : child.count none = child.length := by omega
    have hall := List.count_eq_length.mp heq
    have haa : a < child.length := by omega
    have := hall (child.getD a none)
      (by rw [List.getD_eq_getElem _ _ haa]; exact List.getElem_mem _)
    exact hseg this.symm

theorem oxFill_done (n a : ℕ) :
    ∀ (rest : List ℕ) (child : List (Option ℕ)) (childIdx : ℕ),
      OxInv n a child childIdx rest →
      OxDone n (oxFill a n child childIdx rest) := by
  intro rest
  induction rest with
  | nil =>
    intro child childIdx inv
    have h0 : child.count none = 0 := by
      have := inv.havail
      simpa using this
    exact ⟨inv.hlen, h0, inv.hcount, inv.hbound⟩
  | cons x rest ih =>
    intro child childIdx inv
    have hn0 : 0 < n := by have := inv.ha; omega
    by_cases hexit : childIdx = a
    · -- the loop exits; all cells must be filled
      have h0 : child.count none = 0 := by
        by_contra hne
        have hu : 0 < child.count none := Nat.pos_of_ne_zero hne
        have := inv.hnone 0 hu
        rw [Nat.add_zero, Nat.mod_eq_of_lt inv.hidx, hexit] at this
        exact inv.hseg this
      have heq0 : oxFill a n child childIdx (x :: rest) = child := by
        simp only [oxFill]
        rw [if_pos hexit]
      rw [heq0]
      exact ⟨inv.hlen, h0, inv.hcount, inv.hbound⟩
    · by_cases hcont : child.contains (some x)
      · -- gene already present: skip it
        have heq : oxFill a n child childIdx (x :: rest) =
            oxFill a n child childIdx rest := by
          simp only [oxFill]
          rw [if_neg hexit, if_pos hcont]
        rw [heq]
        apply ih
        refine ⟨inv.hlen, inv.ha, inv.hidx, inv.hseg, inv.hnone, inv.hpos,
          inv.hbound, inv.hcount, inv.hnodup.of_cons,
          fun y hy => inv.hrest y (List.mem_cons_of_mem _ hy), ?_⟩
        have hsplit0 : (x :: rest).filter (fun y => !(child.contains (some y))) =
            rest.filter (fun y => !(child.contains (some y))) := by
          have hmemx : some x ∈ child := List.mem_of_elem_eq_true hcont
          rw [List.filter_cons]
          simp [hmemx]
        rw [← hsplit0]
        exact inv.havail
      · -- place the gene at childIdx and advance
        have hu : 0 < child.count none := by
          by_contra hz
          have hu0 : child.count none = 0 := by omega
          have := inv.hpos
          rw [hu0, Nat.add_zero, Nat.mod_eq_of_lt inv.hidx] at this
          exact hexit this
        have hultn : child.count none < n :=
          count_none_lt n a child inv.hlen inv.ha inv.hseg
        have hidxlen : childIdx < child.length := by
          rw [inv.hlen]; exact inv.hidx
        have hcell : child.getD childIdx none = none := by
          have := inv.hnone 0 hu
          rwa [Nat.add_zero, Nat.mod_eq_of_lt inv.hidx] at this
        have hcellE : child[childIdx] = none := by
          rw [← List.getD_eq_getElem child none hidxlen]
          exact hcell
        have heq : oxFill a n child childIdx (x :: rest) =
            oxFill a n (child.set childIdx (some x)) ((childIdx + 1) % n)
              rest := by
          simp only [oxFill]
          rw [if_neg hexit, if_neg hcont]
        rw [heq]
        apply ih
        have hcnt := count_set_add_opt child childIdx (some x) none hidxlen
        rw [hcellE, if_pos rfl, if_neg (by simp)] at hcnt
        set child' := child.set childIdx (some x) with hchild'
        have hlen' : child'.length = n := by
          rw [hchild', List.length_set, inv.hlen]
        -- the unfilled count decreases by one
        have hu' : child'.count none = child.count none - 1 := by
          omega
        -- counts of genes: the new gene appears once, others unchanged
        have hcnt2 : ∀ y : ℕ, child'.count (some y) =
            child.count (some y) + (if x = y then 1 else 0) := by
          intro y
          rw [hchild']
          have h := count_set_add_opt child childIdx (some x) (some y) hidxlen
          rw [hcellE] at h
          have hnoneq : (none : Option ℕ) ≠ some y := by simp
          rw [if_neg hnoneq] at h
          by_cases hxy : x = y
          · rw [if_pos (congrArg Option.some hxy)] at h
            rw [if_pos hxy]
            omega
          · rw [if_neg (fun hc => hxy (by injection hc))] at h
            rw [if_neg hxy]
            omega
        have hmemx : some x ∉ child := by
          intro hmem
          exact hcont (List.elem_eq_true_of_mem hmem)
        have hcountx : child.count (some x) = 0 := List.count_eq_zero.mpr hmemx
        have hmem' : ∀ y : ℕ, (some y ∈ child' ↔ some y ∈ child ∨ y = x) := by
          intro y
          constructor
          · intro hm
            rcases List.mem_or_eq_of_mem_set hm with hm | hm
            · exact Or.inl hm
            · exact Or.inr (Option.some.inj hm)
          · intro hm
            rcases hm with hm | hm
            · have hpos : 0 < child'.count (some y) := by
                rw [hcnt2 y]
                have := List.count_pos_iff.mpr hm
                omega
              exact List.count_pos_iff.mp hpos
            · subst hm
              have hpos : 0 < child'.count (some y) := by
                rw [hcnt2 y, if_pos rfl]
                omega
              exact List.count_pos_iff.mp hpos
        refine ⟨hlen', inv.ha, Nat.mod_lt _ hn0, ?_, ?_, ?_, ?_, ?_,
          inv.hnodup.of_cons,
          fun y hy => inv.hrest y (List.mem_cons_of_mem _ hy), ?_⟩
        · -- cell a stays filled
          have haa : a < child.length := by rw [inv.hlen]; exact inv.ha
          have : child'.getD a none = child.getD a none := by
            rw [hchild']
            exact getD_set_ne child childIdx a (some x) none hexit haa
          rw [this]
          exact inv.hseg
        · -- the remaining unfilled cells are the next cyclic positions
          intro s hs
          rw [hu'] at hs
          have hs1 : s + 1 < child.count none := by omega
          have hprev := inv.hnone (s + 1) hs1
          have hmod : ((childIdx + 1) % n + s) % n = (childIdx + (s + 1)) % n := by
            rw [Nat.mod_add_mod]
            ring_nf
          rw [hmod]
          have hne : (childIdx + (s + 1)) % n ≠ childIdx :=
            mod_add_ne_self childIdx (s + 1) n inv.hidx (by omega) (by omega)
          have hplen : (childIdx + (s + 1)) % n < child.length := by
            rw [inv.hlen]; exact Nat.mod_lt _ hn0
          have : child'.getD ((childIdx + (s + 1)) % n) none =
              child.getD ((childIdx + (s + 1)) % n) none := by
            rw [hchild']
            exact getD_set_ne child childIdx _ (some x) none
              (fun h => hne h.symm) hplen
          rw [this]
          exact hprev
        · -- the cyclic-end equation still points at `a`
          rw [hu', Nat.mod_add_mod]
          have harg : childIdx + 1 + (child.count none - 1) =
              childIdx + child.count none := by omega
          rw [harg]
          exact inv.hpos
        · -- genes stay below n
          intro y hy
          rcases (hmem' y).mp hy with hm | hm
          · exact inv.hbound y hm
          · subst hm
            exact inv.hrest y (List.mem_cons_self _ _)
        · -- genes stay duplicate-free
          intro y
          rw [hcnt2 y]
          by_cases hxy : x = y
          · subst hxy
            rw [hcountx]
            simp
          · have := inv.hcount y
            rw [if_neg hxy]
            omega
        · -- enough fresh genes remain in the scan
          have hsplit : (x :: rest).filter
              (fun y => !(child.contains (some y))) =
              x :: rest.filter (fun y => !(child.contains (some y))) := by
            rw [List.filter_cons]
            simp [hmemx]
          have hav := inv.havail
          rw [hsplit, List.length_cons] at hav
          have hxnotin : x ∉ rest := by
            have hnd := inv.hnodup
            rw [List.nodup_cons] at hnd
            exact hnd.1
          have hcongr : rest.filter (fun y => !(child'.contains (some y))) =
              rest.filter (fun y => !(child.contains (some y))) := by
            apply List.filter_congr
            intro y hy
            have hyx : y ≠ x := fun h => hxnotin (h ▸ hy)
            have hmemiff : (some y ∈ child') ↔ (some y ∈ child) := by
              rw [hmem' y]
              constructor
              · intro h
                rcases h with h | h
                · exact h
                · exact absurd h hyx
              · exact Or.inl
            have hceq : child'.contains (some y) = child.contains (some y) := by
              by_cases hmem : some y ∈ child
              · show List.elem (some y) child' = List.elem (some y) child
                rw [List.elem_eq_true_of_mem (hmemiff.mpr hmem),
                  List.elem_eq_true_of_mem hmem]
              · have h1 : child'.contains (some y) = false := by
                  cases hb : child'.contains (some y)
                  · rfl
                  · exact absurd (hmemiff.mp (List.mem_of_elem_eq_true hb)) hmem
                have h2 : child.contains (some y) = false := by
                  cases hb : child.contains (some y)
                  · rfl
                  · exact absurd (List.mem_of_elem_eq_true hb) hmem
                rw [h1, h2]
            rw [hceq]
          rw [hcongr, hu']
          omega

/-- Counting a gene in the fully filled child equals counting its `some`
cell. -/
theorem count_map_getD (l : List (Option ℕ)) (hnone : none ∉ l) (z : ℕ) :
    (l.map (fun c => c.getD 0)).count z = l.count (some z) := by
  induction l with
  | nil => simp
  | cons o t ih =>
    have ho : o ≠ none := fun h => hnone (h ▸ List.mem_cons_self _ _)
    have ht : none ∉ t := fun h => hnone (List.mem_cons_of_mem _ h)
    cases o with
    | none => exact absurd rfl ho
    | some w =>
      simp only [List.map_cons, Option.getD_some, List.count_cons, ih ht]
      by_cases hwz : w = z
      · subst hwz
        simp
      · have h1 : (w == z) = false := by simpa using hwz
        have h2 : ((some w : Option ℕ) == some z) = false := by
          simpa using hwz
        rw [h1, h2]

/-- A list of `some`-cells with genes below `n` has total gene count equal to
its length. -/
theorem sum_count_some (n : ℕ) :
    ∀ (l : List (Option ℕ)), (∀ o ∈ l, ∃ z, z < n ∧ o = some z) →
    (∑ z ∈ Finset.range n, l.count (some z)) = l.length := by
  intro l
  induction l with
  | nil => simp
  | cons o t ih =>
    intro h
    obtain ⟨w, hw, hwo⟩ := h o (List.mem_cons_self _ _)
    subst hwo
    have ht := ih (fun o ho => h o (List.mem_cons_of_mem _ ho))
    have hcnt : ∀ z, (some w :: t).count (some z) =
        t.count (some z) + (if w = z then 1 else 0) := by
      intro z
      rw [List.count_cons]
      by_cases hwz : w = z
      · subst hwz; simp
      · have h2 : ((some w : Option ℕ) == some z) = false := by simpa using hwz
        rw [h2, if_neg hwz]
        simp
    calc (∑ z ∈ Finset.range n, (some w :: t).count (some z))
        = ∑ z ∈ Finset.range n,
            (t.count (some z) + (if w = z then 1 else 0)) := by
          exact Finset.sum_congr rfl (fun z _ => hcnt z)
      _ = (∑ z ∈ Finset.range n, t.count (some z)) +
            ∑ z ∈ Finset.range n, (if w = z then 1 else 0) := by
          rw [Finset.sum_add_distrib]
      _ = t.length + 1 := by
          rw [ht, Finset.sum_ite_eq]
          simp [Finset.mem_range.mpr hw]
      _ = (some w :: t).length := by simp

/-- The completed child is a permutation of `range n`. -/
theorem oxDone_map_perm (n : ℕ) (child : List (Option ℕ))
    (hd : OxDone n child) :
    (child.map (fun c => c.getD 0)).Perm (List.range n) := by
  have hnomem : none ∉ child := List.count_eq_zero.mp hd.hnone
  have hsum : (∑ z ∈ Finset.range n, child.count (some z)) = n := by
    rw [sum_count_some n child ?_, hd.hlen]
    intro o ho
    cases o with
    | none => exact absurd ho hnomem
    | some z => exact ⟨z, hd.hbound z (by simpa using ho), rfl⟩
  have hone : ∀ z ∈ Finset.range n, child.count (some z) = 1 := by
    intro z hz
    by_contra hne
    have hz0 : child.count (some z) = 0 := by
      have := hd.hcount z
      omega
    have hlt : (∑ x ∈ Finset.range n, child.count (some x)) <
        ∑ x ∈ Finset.range n, 1 := by
      apply Finset.sum_lt_sum
      · intro i _
        exact hd.hcount i
      · exact ⟨z, hz, by omega⟩
    rw [hsum] at hlt
    simp at hlt
  rw [List.perm_iff_count]
  intro z
  rw [count_map_getD child hnomem z, count_range_eq]
  by_cases hzn : z < n
  · rw [if_pos hzn]
    exact hone z (Finset.mem_range.mpr hzn)
  · rw [if_neg hzn]
    apply List.count_eq_zero.mpr
    intro hmem
    exact hzn (hd.hbound z hmem)

/-- The initial invariant holds for the segment-filled child and the
parent-2 scan, whenever the parents are permutations of `range n` and the
cut interval `[a, b]` sits inside `[0, n)`. -/
theorem ox_initial_inv (n a b : ℕ) (p1 p2 : List ℕ) (hab : a ≤ b)
    (hbn : b < n) (hp1 : p1.Perm (List.range n))
    (hp2 : p2.Perm (List.range n)) :
    OxInv n a
      ((List.range n).map
        (fun i => if a ≤ i ∧ i ≤ b then some (p1.getD i 0) else none))
      ((b + 1) % n) (p2.rotate ((b + 1) % n)) := by
  have hn0 : 0 < n := by omega
  have hp1len : p1.length = n := by
    rw [hp1.length_eq, List.length_range]
  have hp1nodup : p1.Nodup := hp1.nodup_iff.mpr (List.nodup_range n)
  have hp2nodup : p2.Nodup := hp2.nodup_iff.mpr (List.nodup_range n)
  set fillFn : ℕ → Option ℕ :=
    (fun i => if a ≤ i ∧ i ≤ b then some (p1.getD i 0) else none) with hfill
  set child0 := (List.range n).map fillFn with hchild0
  have hlen0 : child0.length = n := by
    rw [hchild0, List.length_map, List.length_range]
  have hcell : ∀ p, p < n → child0.getD p none = fillFn p := by
    intro p hp
    have hp'' : p < (List.map fillFn (List.range n)).length := by
      simpa using hp
    rw [hchild0, List.getD_eq_getElem _ none hp'']
    simp
  -- the number of unfilled cells
  have hcount_none : child0.count none = n - (b + 1 - a) := by
    have h1 : child0.count none =
        (List.range n).countP (fun i => fillFn i == none) := by
      rw [hchild0]
      show List.countP (fun o => o == none) _ = _
      rw [List.countP_map]
      rfl
    have h2 : (List.range n).countP (fun i => fillFn i == none) =
        (List.range n).countP (fun i => !(decide (a ≤ i ∧ i ≤ b))) := by
      apply List.countP_congr
      intro i _
      by_cases hi : a ≤ i ∧ i ≤ b <;> simp [hfill, hi]
    have h3 := countP_not_add (fun i => decide (a ≤ i ∧ i ≤ b)) (List.range n)
    have h4 := countP_range_interval n a b
    rw [List.length_range] at h3
    rw [h1, h2]
    omega
  constructor
  · exact hlen0
  · omega
  · exact Nat.mod_lt _ hn0
  · -- cell a holds the segment gene
    rw [hcell a (by omega)]
    simp [hfill, hab]
  · -- the unfilled cells are cyclically consecutive from (b+1) % n
    intro s hs
    rw [hcount_none] at hs
    rw [Nat.mod_add_mod]
    have hq : (b + 1 + s) % n < n := Nat.mod_lt _ hn0
    rw [hcell _ hq]
    rcases Nat.lt_or_ge (b + 1 + s) n with hlt | hge
    · rw [Nat.mod_eq_of_lt hlt]
      simp only [hfill]
      rw [if_neg (by omega)]
    · rw [mod_sub_of_lt_two_mul _ _ hge (by omega)]
      simp only [hfill]
      rw [if_neg (by omega)]
  · -- the cyclic run of unfilled cells ends at a
    rw [hcount_none, Nat.mod_add_mod]
    have harg : b + 1 + (n - (b + 1 - a)) = n + a := by omega
    rw [harg, Nat.add_mod_left]
    exact Nat.mod_eq_of_lt (by omega)
  · -- genes below n
    intro z hz
    rw [hchild0] at hz
    obtain ⟨i, hi, hfz⟩ := List.mem_map.mp hz
    have hin : i < n := List.mem_range.mp hi
    by_cases hcond : a ≤ i ∧ i ≤ b
    · rw [hfill] at hfz
      simp only [hcond, if_true, and_self] at hfz
      have hzi : z = p1.getD i 0 := by
        have := hfz
        simp only [if_pos hcond] at this
        exact (Option.some.inj this).symm
      have hip : i < p1.length := by rw [hp1len]; exact hin
      have hmem : p1.getD i 0 ∈ p1 := by
        rw [List.getD_eq_getElem p1 0 hip]
        exact List.getElem_mem _
      have : p1.getD i 0 ∈ List.range n := hp1.mem_iff.mp hmem
      rw [hzi]
      exact List.mem_range.mp this
    · rw [hfill] at hfz
      simp only [if_neg hcond] at hfz
      exact absurd hfz (by simp)
  · -- genes occur at most once
    intro z
    have h1 : child0.count (some z) =
        (List.range n).countP (fun i => fillFn i == some z) := by
      rw [hchild0]
      show List.countP (fun o => o == some z) _ = _
      rw [List.countP_map]
      rfl
    have h2 : (List.range n).countP (fun i => fillFn i == some z) ≤
        (List.range n).countP (fun i => decide (p1.getD i 0 = z)) := by
      apply List.countP_mono_left
      intro i _ hi
      by_cases hcond : a ≤ i ∧ i ≤ b
      · simp only [hfill, if_pos hcond] at hi
        simpa using hi
      · simp only [hfill, if_neg hcond] at hi
        simp at hi
    have h3 : (List.range n).countP (fun i => decide (p1.getD i 0 = z)) =
        p1.count z := by
      have := countP_getD_range p1 z
      rw [hp1len] at this
      exact this
    have h4 : p1.count z ≤ 1 := List.nodup_iff_count_le_one.mp hp1nodup z
    omega
  · -- the scan is duplicate-free
    exact (List.rotate_perm p2 ((b + 1) % n)).nodup_iff.mpr hp2nodup
  · -- scan genes below n
    intro y hy
    have : y ∈ p2 := (List.rotate_perm p2 ((b + 1) % n)).subset hy
    exact List.mem_range.mp (hp2.mem_iff.mp this)
  · -- at least `count none` fresh genes remain in the scan
    have hseglen : ((List.range n).filter
        (fun i => decide (a ≤ i ∧ i ≤ b))).length = b + 1 - a := by
      rw [← List.countP_eq_length_filter]
      have := countP_range_interval n a b
      omega
    set segGenes := ((List.range n).filter
      (fun i => decide (a ≤ i ∧ i ≤ b))).map (fun i => p1.getD i 0)
      with hsegG
    have hsegGlen : segGenes.length = b + 1 - a := by
      rw [hsegG, List.length_map, hseglen]
    have hsub : ((List.range n).filter
        (fun y => child0.contains (some y))) ⊆ segGenes := by
      intro y hy
      rw [List.mem_filter] at hy
      have hmem : some y ∈ child0 := List.mem_of_elem_eq_true hy.2
      rw [hchild0] at hmem
      obtain ⟨i, hi, hfz⟩ := List.mem_map.mp hmem
      by_cases hcond : a ≤ i ∧ i ≤ b
      · rw [hsegG]
        apply List.mem_map.mpr
        refine ⟨i, ?_, ?_⟩
        · rw [List.mem_filter]
          exact ⟨hi, by simpa using hcond⟩
        · rw [hfill] at hfz
          simp only [if_pos hcond] at hfz
          exact Option.some.inj hfz
      · rw [hfill] at hfz
        simp only [if_neg hcond] at hfz
        exact absurd hfz (by simp)
    have hnd : ((List.range n).filter
        (fun y => child0.contains (some y))).Nodup :=
      (List.nodup_range n).filter _
    have hsubperm := List.subperm_of_subset hnd hsub
    have hlesub : ((List.range n).filter
        (fun y => child0.contains (some y))).length ≤ b + 1 - a := by
      have := hsubperm.length_le
      omega
    have hcp1 : (List.range n).countP (fun y => child0.contains (some y)) ≤
        b + 1 - a := by
      rw [List.countP_eq_length_filter]
      exact hlesub
    have hcompl := countP_not_add (fun y => child0.contains (some y))
      (List.range n)
    rw [List.length_range] at hcompl
    have hfilterlen : ((p2.rotate ((b + 1) % n)).filter
        (fun y => !(child0.contains (some y)))).length =
        (List.range n).countP (fun y => !(child0.contains (some y))) := by
      rw [← List.countP_eq_length_filter]
      rw [(List.rotate_perm p2 ((b + 1) % n)).countP_eq]
      rw [hp2.countP_eq]
    rw [hfilterlen, hcount_none]
    omega

/-- Order crossover of two permutations of `range n` is a permutation of
`range n`. -/
theorem orderCrossover_perm (g : ℕ → ℕ) (ctr : ℕ) (n : ℕ) (p1 p2 : List ℕ)
    (hn : 0 < n) (hp1 : p1.Perm (List.range n))
    (hp2 : p2.Perm (List.range n)) :
    (orderCrossover g ctr p1 p2).1.Perm (List.range n) := by
  have hp1len : p1.length = n := by rw [hp1.length_eq, List.length_range]
  simp only [orderCrossover, hp1len]
  set s1 := draw g ctr n with hs1
  set s2 := draw g (ctr + 1) n with hs2
  have hs1n : s1 < n := Nat.mod_lt _ hn
  have hs2n : s2 < n := Nat.mod_lt _ hn
  set a := if s1 < s2 then s1 else s2 with ha
  set b := if s1 < s2 then s2 else s1 with hb
  have hab : a ≤ b := by
    rw [ha, hb]
    split <;> omega
  have hbn : b < n := by
    rw [hb]
    split <;> omega
  have hinv := ox_initial_inv n a b p1 p2 hab hbn hp1 hp2
  have hdone := oxFill_done n a (p2.rotate ((b + 1) % n))
    ((List.range n).map
      (fun i => if a ≤ i ∧ i ≤ b then some (p1.getD i 0) else none))
    ((b + 1) % n) hinv
  exact oxDone_map_perm n _ hdone

/-! ## Genetic algorithm: population-level lemmas -/

theorem mutateRoute_perm (g : ℕ → ℕ) (ctr : ℕ) (route : List ℕ)
    (h : 0 < route.length) : (mutateRoute g ctr route).1.Perm route := by
  simp only [mutateRoute]
  exact swapIdx_perm route _ _ (Nat.mod_lt _ h) (Nat.mod_lt _ h)

theorem gaChild_perm (g : ℕ → ℕ) (pop : List (List ℕ)) (fitness : List ℚ)
    (popSize ctr n : ℕ) (hpop : pop.length = popSize) (hps : 0 < popSize)
    (hn : 0 < n) (hall : ∀ r ∈ pop, r.Perm (List.range n)) :
    (gaChild g pop fitness popSize ctr).1.Perm (List.range n) := by
  have hidx : ∀ c, draw g c popSize < pop.length := by
    intro c
    rw [hpop]
    exact Nat.mod_lt _ hps
  have hp1 : (tournamentPick fitness pop (draw g ctr popSize)
      (draw g (ctr + 1) popSize)).Perm (List.range n) :=
    hall _ (tournamentPick_mem fitness pop _ _ (hidx _) (hidx _))
  have hp2 : (tournamentPick fitness pop (draw g (ctr + 2) popSize)
      (draw g (ctr + 3) popSize)).Perm (List.range n) :=
    hall _ (tournamentPick_mem fitness pop _ _ (hidx _) (hidx _))
  have hcc := orderCrossover_perm g (ctr + 4) n _ _ hn hp1 hp2
  have hcclen : (orderCrossover g (ctr + 4)
      (tournamentPick fitness pop (draw g ctr popSize)
        (draw g (ctr + 1) popSize))
      (tournamentPick fitness pop (draw g (ctr + 2) popSize)
        (draw g (ctr + 3) popSize))).1.length = n := by
    rw [hcc.length_eq, List.length_range]
  simp only [gaChild]
  split
  · exact (mutateRoute_perm g _ _ (by omega)).trans hcc
  · exact hcc

theorem gaChildren_mem_perm (g : ℕ → ℕ) (pop : List (List ℕ))
    (fitness : List ℚ) (popSize n : ℕ) (hpop : pop.length = popSize)
    (hps : 0 < popSize) (hn : 0 < n)
    (hall : ∀ r ∈ pop, r.Perm (List.range n)) :
    ∀ (count ctr : ℕ) (r : List ℕ),
      r ∈ (gaChildren g pop fitness popSize count ctr).1 →
      r.Perm (List.range n) := by
  intro count
  induction count with
  | zero => intro ctr r h; simp [gaChildren] at h
  | succ c ih =>
    intro ctr r h
    simp only [gaChildren, List.mem_cons] at h
    rcases h with h | h
    · subst h
      exact gaChild_perm g pop fitness popSize ctr n hpop hps hn hall
    · exact ih _ r h

theorem gaChildren_length (g : ℕ → ℕ) (pop : List (List ℕ))
    (fitness : List ℚ) (popSize : ℕ) :
    ∀ (count ctr : ℕ),
      (gaChildren g pop fitness popSize count ctr).1.length = count := by
  intro count
  induction count with
  | zero => intro ctr; simp [gaChildren]
  | succ c ih => intro ctr; simp [gaChildren, ih]

theorem gaLoop_inv (d : Stop → Stop → ℚ) (g : ℕ → ℕ) (stops : List Stop)
    (popSize n : ℕ) (hps : 0 < popSize) (hn : 0 < n) :
    ∀ (gens : ℕ) (pop : List (List ℕ)) (ctr : ℕ),
      pop.length = popSize → (∀ r ∈ pop, r.Perm (List.range n)) →
      (gaLoop d g stops popSize gens pop ctr).1.length = popSize ∧
      ∀ r ∈ (gaLoop d g stops popSize gens pop ctr).1,
        r.Perm (List.range n) := by
  intro gens
  induction gens with
  | zero =>
    intro pop ctr hlen hall
    exact ⟨hlen, hall⟩
  | succ gs ih =>
    intro pop ctr hlen hall
    simp only [gaLoop]
    exact ih _ _ (gaChildren_length g pop _ popSize popSize ctr)
      (fun r hr => gaChildren_mem_perm g pop _ popSize n hlen hps hn hall
        popSize ctr r hr)

/-! ## Minimum selection (`Math.min(...distances)` and `indexOf`) -/

theorem foldl_min_le_init (xs : List ℚ) :
    ∀ acc : ℚ, xs.foldl min acc ≤ acc := by
  induction xs with
  | nil => intro acc; exact le_refl _
  | cons x t ih =>
    intro acc
    exact le_trans (ih (min acc x)) (min_le_left _ _)

theorem foldl_min_le_mem (xs : List ℚ) :
    ∀ (acc : ℚ) (x : ℚ), x ∈ xs → xs.foldl min acc ≤ x := by
  induction xs with
  | nil => intro acc x h; simp at h
  | cons y t ih =>
    intro acc x h
    rcases List.mem_cons.mp h with h | h
    · subst h
      exact le_trans (foldl_min_le_init t (min acc x)) (min_le_right _ _)
    · exact ih (min acc y) x h

theorem foldl_min_mem (xs : List ℚ) :
    ∀ acc : ℚ, xs.foldl min acc = acc ∨ xs.foldl min acc ∈ xs := by
  induction xs with
  | nil => intro acc; exact Or.inl rfl
  | cons x t ih =>
    intro acc
    rcases ih (min acc x) with h | h
    · rcases min_cases acc x with ⟨hm, _⟩ | ⟨hm, _⟩
      · left; simp only [List.foldl_cons]; rw [h, hm]
      · right; simp only [List.foldl_cons]; rw [h, hm]; exact List.mem_cons_self _ _
    · right
      simp only [List.foldl_cons]
      exact List.mem_cons_of_mem _ h

theorem minOfList_mem (l : List ℚ) (h : l ≠ []) : minOfList l ∈ l := by
  cases l with
  | nil => exact absurd rfl h
  | cons x t =>
    simp only [minOfList]
    rcases foldl_min_mem t x with h' | h'
    · rw [h']; exact List.mem_cons_self _ _
    · exact List.mem_cons_of_mem _ h'

theorem minOfList_le (l : List ℚ) (x : ℚ) (h : x ∈ l) : minOfList l ≤ x := by
  cases l with
  | nil => simp at h
  | cons y t =>
    simp only [minOfList]
    rcases List.mem_cons.mp h with h' | h'
    · subst h'
      exact foldl_min_le_init t x
    · exact foldl_min_le_mem t y x h'

theorem geneticAlgorithm_perm (d : Stop → Stop → ℚ) (g : ℕ → ℕ) (ctr : ℕ)
    (stops : List Stop) (popSize gens : ℕ) (hps : 0 < popSize) :
    (geneticAlgorithm d g ctr stops popSize gens).stops.Perm stops := by
  unfold geneticAlgorithm
  split
  · exact nearestNeighbor_perm d stops
  · rename_i hlen4
    have hn : 0 < stops.length := by omega
    have hinit_len := initPopulation_length g stops.length popSize ctr
    have hinit_perm := initPopulation_mem_perm g stops.length popSize ctr
    have hloop := gaLoop_inv d g stops popSize stops.length hps hn gens
      (initPopulation g stops.length popSize ctr).1
      (initPopulation g stops.length popSize ctr).2 hinit_len hinit_perm
    set finalPop := (gaLoop d g stops popSize gens
      (initPopulation g stops.length popSize ctr).1
      (initPopulation g stops.length popSize ctr).2).1 with hfp
    set distances := finalPop.map
      (fun route => calculateRouteDistance d (route.map (stopAt stops)))
      with hdist
    have hdlen : distances.length = popSize := by
      rw [hdist, List.length_map, hloop.1]
    have hdne : distances ≠ [] := by
      intro hnil
      rw [hnil] at hdlen
      simp at hdlen
      omega
    have hmin_mem : minOfList distances ∈ distances :=
      minOfList_mem distances hdne
    have hidx : List.indexOf (minOfList distances) distances <
        distances.length := List.indexOf_lt_length.mpr hmin_mem
    have hidx' : List.indexOf (minOfList distances) distances <
        finalPop.length := by
      rw [hloop.1]; omega
    have hbest_mem : finalPop.getD
        (List.indexOf (minOfList distances) distances) [] ∈ finalPop := by
      rw [List.getD_eq_getElem _ _ hidx']
      exact List.getElem_mem _
    have hbest_perm := hloop.2 _ hbest_mem
    simpa [map_stopAt_range] using
      ((hbest_perm.map (stopAt stops)).symm.symm)

/-! ## Comparator lemmas -/

theorem insertByDistance_perm (r : OptimizationResult)
    (l : List OptimizationResult) :
    (insertByDistance r l).Perm (r :: l) := by
  induction l with
  | nil => exact List.Perm.refl _
  | cons x xs ih =>
    simp only [insertByDistance]
    split
    · exact List.Perm.refl _
    · exact (ih.cons x).trans (List.Perm.swap r x xs)

theorem sortByDistance_perm (l : List OptimizationResult) :
    (sortByDistance l).Perm l := by
  induction l with
  | nil => exact List.Perm.refl _
  | cons x xs ih =>
    simp only [sortByDistance]
    exact (insertByDistance_perm x (sortByDistance xs)).trans (ih.cons x)

theorem insertByDistance_sorted (r : OptimizationResult)
    (l : List OptimizationResult)
    (h : l.Pairwise (fun a b => a.distance ≤ b.distance)) :
    (insertByDistance r l).Pairwise (fun a b => a.distance ≤ b.distance) := by
  induction l with
  | nil => simp [insertByDistance]
  | cons x xs ih =>
    simp only [insertByDistance]
    split
    · rename_i hle
      apply List.Pairwise.cons
      · intro b hb
        rcases List.mem_cons.mp hb with hb | hb
        · subst hb; exact hle
        · have := List.rel_of_pairwise_cons h hb
          exact le_trans hle this
      · exact h
    · rename_i hgt
      have hxr : x.distance ≤ r.distance := le_of_not_le hgt
      rw [List.pairwise_cons] at h
      apply List.Pairwise.cons
      · intro b hb
        have := (insertByDistance_perm r xs).mem_iff.mp hb
        rcases List.mem_cons.mp this with hb' | hb'
        · subst hb'; exact hxr
        · exact h.1 b hb'
      · exact ih h.2

theorem sortByDistance_sorted (l : List OptimizationResult) :
    (sortByDistance l).Pairwise (fun a b => a.distance ≤ b.distance) := by
  induction l with
  | nil => simp [sortByDistance]
  | cons x xs ih =>
    simp only [sortByDistance]
    exact insertByDistance_sorted x (sortByDistance xs) ih

/-! ## Distance model lemmas -/

theorem pathDist_nonneg (d : Stop → Stop → ℚ) (hd : ∀ a b, 0 ≤ d a b) :
    ∀ l : List Stop, 0 ≤ pathDist d l := by
  intro l
  induction l with
  | nil => simp [pathDist]
  | cons a t ih =>
    cases t with
    | nil => simp [pathDist]
    | cons b t' =>
      simp only [pathDist]
      have hab := hd a b
      linarith

theorem calculateRouteDistance_nonneg (d : Stop → Stop → ℚ)
    (hd : ∀ a b, 0 ≤ d a b) (l : List Stop) :
    0 ≤ calculateRouteDistance d l := by
  match l with
  | [] => simp [calculateRouteDistance]
  | [x] => simp [calculateRouteDistance]
  | a :: b :: t =>
    simp only [calculateRouteDistance]
    have h1 := pathDist_nonneg d hd (a :: b :: t)
    have h2 := hd (lastStop a (b :: t)) a
    linarith

theorem calculateRouteDistance_short (d : Stop → Stop → ℚ) (l : List Stop)
    (h : l.length < 2) : calculateRouteDistance d l = 0 := by
  match l with
  | [] => rfl
  | [x] => rfl
  | a :: b :: t => exact absurd h (by simp)

theorem calculateRouteDistance_pos (d : Stop → Stop → ℚ)
    (hd : ∀ a b, 0 < d a b) (l : List Stop) (h : 2 ≤ l.length) :
    0 < calculateRouteDistance d l := by
  match l with
  | [] => simp at h
  | [x] => simp at h
  | a :: b :: t =>
    simp only [calculateRouteDistance]
    have h1 := pathDist_nonneg d (fun a b => le_of_lt (hd a b)) (a :: b :: t)
    have h2 := hd (lastStop a (b :: t)) a
    linarith

theorem lastStop_append (d : Stop → Stop → ℚ) :
    ∀ (l : List Stop) (a x : Stop), lastStop a (l ++ [x]) = x := by
  intro l
  induction l with
  | nil => intro a x; rfl
  | cons b t ih => intro a x; exact ih b x

theorem pathDist_append_last (d : Stop → Stop → ℚ) :
    ∀ (l : List Stop) (a x : Stop),
      pathDist d (a :: l ++ [x]) = pathDist d (a :: l) + d (lastStop a l) x := by
  intro l
  induction l with
  | nil =>
    intro a x
    simp [pathDist, lastStop]
  | cons b t ih =>
    intro a x
    have hb := ih b x
    show d a b + pathDist d (b :: (t ++ [x])) =
      d a b + pathDist d (b :: t) + d (lastStop b t) x
    rw [show (b :: (t ++ [x])) = b :: t ++ [x] from rfl, hb]
    ring

theorem lastStop_eq_getLastD :
    ∀ (l : List Stop) (a : Stop), lastStop a l = (a :: l).getLastD default := by
  intro l
  induction l with
  | nil => intro a; rfl
  | cons b t ih =>
    intro a
    rw [lastStop]
    rw [ih b]
    rfl

theorem calculateRouteDistance_rotate_one (d : Stop → Stop → ℚ)
    (l : List Stop) :
    calculateRouteDistance d (l.rotate 1) = calculateRouteDistance d l := by
  match l with
  | [] => rfl
  | [x] => rw [List.rotate_singleton]
  | a :: b :: t =>
    have hrot : (a :: b :: t).rotate 1 = b :: (t ++ [a]) := by
      rw [List.rotate_cons_succ, List.rotate_zero]
      simp
    rw [hrot]
    match t with
    | [] =>
      simp only [calculateRouteDistance, pathDist, lastStop, List.nil_append]
      ring
    | c :: t' =>
      have hshape : b :: ((c :: t') ++ [a]) = b :: c :: (t' ++ [a]) := by simp
      rw [hshape]
      simp only [calculateRouteDistance]
      have h1 : pathDist d (b :: c :: (t' ++ [a])) =
          pathDist d (b :: c :: t') + d (lastStop b (c :: t')) a := by
        have := pathDist_append_last d (c :: t') b a
        simpa using this
      have h2 : lastStop b (c :: (t' ++ [a])) = a := by
        have : (c :: (t' ++ [a])) = (c :: t') ++ [a] := by simp
        rw [this]
        exact lastStop_append d (c :: t') b a
      rw [h1, h2]
      simp only [pathDist, lastStop]
      ring

theorem calculateRouteDistance_rotate (d : Stop → Stop → ℚ) :
    ∀ (k : ℕ) (l : List Stop),
      calculateRouteDistance d (l.rotate k) = calculateRouteDistance d l := by
  intro k
  induction k with
  | zero => intro l; rw [List.rotate_zero]
  | succ k ih =>
    intro l
    have : l.rotate (k + 1) = (l.rotate 1).rotate k := by
      rw [List.rotate_rotate]
      congr 1
      omega
    rw [this, ih, calculateRouteDistance_rotate_one]

theorem pathDist_reverse (d : Stop → Stop → ℚ)
    (hsymm : ∀ a b, d a b = d b a) :
    ∀ l : List Stop, pathDist d l.reverse = pathDist d l := by
  intro l
  induction l with
  | nil => rfl
  | cons a t ih =>
    cases ht : t with
    | nil => rfl
    | cons b t' =>
      rw [← ht]
      have hrev : (a :: t).reverse = t.reverse ++ [a] := by simp
      rw [hrev]
      have htne : t.reverse ≠ [] := by
        rw [ht]; simp
      obtain ⟨c, m, hcm⟩ : ∃ c m, t.reverse = c :: m := by
        cases hx : t.reverse with
        | nil => exact absurd hx htne
        | cons c m => exact ⟨c, m, rfl⟩
      rw [hcm]
      have happ := pathDist_append_last d m c a
      rw [happ]
      have hlast : lastStop c m = b := by
        have h1 : (c :: m).getLastD default = b := by
          rw [← hcm, List.getLastD_eq_getLast?, List.getLast?_reverse, ht]
          rfl
        rw [lastStop_eq_getLastD]
        exact h1
      rw [hlast]
      have hihr : pathDist d (c :: m) = pathDist d t := by
        rw [← hcm]; exact ih
      rw [hihr, ht]
      simp only [pathDist]
      rw [hsymm b a]
      ring

theorem calculateRouteDistance_reverse (d : Stop → Stop → ℚ)
    (hsymm : ∀ a b, d a b = d b a) (l : List Stop) :
    calculateRouteDistance d l.reverse = calculateRouteDistance d l := by
  match hl : l with
  | [] => rfl
  | [x] => rfl
  | a :: b :: t =>
    have hlen : 2 ≤ (a :: b :: t).reverse.length := by simp
    obtain ⟨c, m, hcm⟩ : ∃ c m, (a :: b :: t).reverse = c :: m := by
      cases hx : (a :: b :: t).reverse with
      | nil => simp at hx
      | cons c m => exact ⟨c, m, rfl⟩
    obtain ⟨c2, m2, hcm2⟩ : ∃ c2 m2, m = c2 :: m2 := by
      cases hx : m with
      | nil =>
        rw [hx] at hcm
        have := congrArg List.length hcm
        simp at this
      | cons c2 m2 => exact ⟨c2, m2, rfl⟩
    rw [hcm, hcm2]
    simp only [calculateRouteDistance]
    have hpd : pathDist d (c :: c2 :: m2) = pathDist d (a :: b :: t) := by
      rw [← hcm2, ← hcm]
      exact pathDist_reverse d hsymm (a :: b :: t)
    rw [hpd]
    congr 1
    -- closing edge: last of the reverse is the head, head of the reverse is
    -- the last
    have hlast : lastStop c (c2 :: m2) = a := by
      rw [lastStop_eq_getLastD, ← hcm2, ← hcm, List.getLastD_eq_getLast?,
        List.getLast?_reverse]
      rfl
    have hhead : c = lastStop a (b :: t) := by
      have h1 : (a :: b :: t).reverse.headD default = c := by
        rw [hcm, hcm2]; rfl
      rw [List.headD_eq_head?, List.head?_reverse] at h1
      rw [lastStop_eq_getLastD, List.getLastD_eq_getLast?]
      exact h1.symm
    rw [hlast, ← hhead]
    exact hsymm a c

/-! ## Tie-breaking lemmas -/

theorem scanMin_first_min (d : Stop → Stop → ℚ) (stops : List Stop)
    (cur : ℕ) :
    ∀ (l : List ℕ) (i₀ : ℕ) (m₀ : ℚ) (i : ℕ) (m : ℚ),
      scanMin d stops cur (some (i₀, m₀)) l = some (i, m) →
      (i = i₀ ∧ m = m₀ ∧
        ∀ j ∈ l, m ≤ d (stopAt stops cur) (stopAt stops j)) ∨
      (∃ l₁ l₂, l = l₁ ++ i :: l₂ ∧
        m = d (stopAt stops cur) (stopAt stops i) ∧ m < m₀ ∧
        (∀ j ∈ l₁, m < d (stopAt stops cur) (stopAt stops j)) ∧
        (∀ j ∈ l₂, m ≤ d (stopAt stops cur) (stopAt stops j))) := by
  intro l
  induction l with
  | nil =>
    intro i₀ m₀ i m h
    simp only [scanMin] at h
    left
    obtain ⟨h1, h2⟩ := Prod.mk.injEq _ _ _ _ ▸ Option.some.inj h
    exact ⟨h1.symm, h2.symm, by simp⟩
  | cons x rest ih =>
    intro i₀ m₀ i m h
    simp only [scanMin] at h
    split at h
    · -- the new candidate strictly improves: it becomes the running best
      rename_i hlt
      rcases ih x _ i m h with ⟨hi, hm, hall⟩ | ⟨l₁, l₂, hsplit, hm, hlt2, hbef, haft⟩
      · right
        refine ⟨[], rest, by simp [hi], by rw [hi]; exact hm,
          by rw [hm]; exact hlt, by simp, ?_⟩
        intro j hj
        exact hall j hj
      · right
        refine ⟨x :: l₁, l₂, by simp [hsplit], hm, ?_, ?_, haft⟩
        · exact lt_trans hlt2 hlt
        · intro j hj
          rcases List.mem_cons.mp hj with hj | hj
          · subst hj
            exact hlt2
          · exact hbef j hj
    · -- the new candidate does not strictly improve: the best is kept
      rename_i hge
      have hge' : m₀ ≤ d (stopAt stops cur) (stopAt stops x) := le_of_not_lt hge
      rcases ih i₀ m₀ i m h with ⟨hi, hm, hall⟩ | ⟨l₁, l₂, hsplit, hm, hlt2, hbef, haft⟩
      · left
        refine ⟨hi, hm, ?_⟩
        intro j hj
        rcases List.mem_cons.mp hj with hj | hj
        · subst hj
          rw [hm]
          exact hge'
        · exact hall j hj
      · right
        refine ⟨x :: l₁, l₂, by simp [hsplit], hm, hlt2, ?_, haft⟩
        intro j hj
        rcases List.mem_cons.mp hj with hj | hj
        · subst hj
          exact lt_of_lt_of_le hlt2 hge'
        · exact hbef j hj

/-- The nearest-neighbor scan returns the first index attaining the running
minimum: every candidate scanned before the winner is strictly farther, every
candidate scanned after is at least as far. -/
theorem scanMin_none_first (d : Stop → Stop → ℚ) (stops : List Stop)
    (cur : ℕ) (x : ℕ) (rest : List ℕ) (i : ℕ) (m : ℚ)
    (h : scanMin d stops cur none (x :: rest) = some (i, m)) :
    ∃ l₁ l₂, x :: rest = l₁ ++ i :: l₂ ∧
      m = d (stopAt stops cur) (stopAt stops i) ∧
      (∀ j ∈ l₁, m < d (stopAt stops cur) (stopAt stops j)) ∧
      (∀ j ∈ l₂, m ≤ d (stopAt stops cur) (stopAt stops j)) := by
  have h' : scanMin d stops cur
      (some (x, d (stopAt stops cur) (stopAt stops x))) rest = some (i, m) := h
  rcases scanMin_first_min d stops cur rest x _ i m h' with
    ⟨hi, hm, hall⟩ | ⟨l₁, l₂, hsplit, hm, hlt2, hbef, haft⟩
  · exact ⟨[], rest, by simp [hi], by rw [hi]; exact hm, by simp, hall⟩
  · refine ⟨x :: l₁, l₂, by simp [hsplit], hm, ?_, haft⟩
    intro j hj
    rcases List.mem_cons.mp hj with hj | hj
    · subst hj
      exact hlt2
    · exact hbef j hj

/-- On a fitness tie the ternary `fitness[idx1] > fitness[idx2] ? ... : ...`
takes its second branch: the second-drawn candidate wins the tie. -/
theorem tournamentPick_tie (fitness : List ℚ) (population : List (List ℕ))
    (idx1 idx2 : ℕ) (h : fitness.getD idx1 0 = fitness.getD idx2 0) :
    tournamentPick fitness population idx1 idx2 =
      population.getD idx2 [] := by
  unfold tournamentPick
  rw [if_neg]
  rw [h]
  exact lt_irrefl _

/-! ## Ambient-randomness runs (determinism of nearest neighbor) -/

/-- Running `nearestNeighbor` in the ambient-randomness context: the source
never calls `Math.random()`, so no draw is consumed — the result ignores the
stream and the counter comes back unchanged. -/
def nnRun (g : ℕ → ℕ) (ctr : ℕ) (d : Stop → Stop → ℚ) (stops : List Stop) :
    OptimizationResult × ℕ :=
  (nearestNeighbor d stops, ctr)

/-! ## Concrete instances used in counterexamples and witnesses -/

/-- The pairwise distance on a set of stops that all share one coordinate
pair: the source's Haversine `calculateDistance` returns exactly `0` when
`lat1 = lat2` and `lng1 = lng2` (`dLat = dLng = 0`, so `a = 0` and
`c = 2·atan2(0, 1) = 0`), so on such a set it is the constant-zero
function. -/
def zeroDist : Stop → Stop → ℚ := fun _ _ => 0

theorem pathDist_zeroDist : ∀ l : List Stop, pathDist zeroDist l = 0 := by
  intro l
  induction l with
  | nil => rfl
  | cons a t ih =>
    cases t with
    | nil => rfl
    | cons b t' =>
      simp only [pathDist, zeroDist] at ih ⊢
      rw [ih]
      ring

theorem calculateRouteDistance_zeroDist (l : List Stop) :
    calculateRouteDistance zeroDist l = 0 := by
  match l with
  | [] => rfl
  | [x] => rfl
  | a :: b :: t =>
    simp only [calculateRouteDistance, zeroDist]
    rw [pathDist_zeroDist]
    ring

/-! ## Genetic algorithm with zero generations -/

theorem geneticAlgorithm_zero_gens (d : Stop → Stop → ℚ) (g : ℕ → ℕ)
    (ctr : ℕ) (stops : List Stop) (popSize : ℕ)
    (h4 : 4 ≤ stops.length) (hps : 0 < popSize) :
    ∃ route ∈ (initPopulation g stops.length popSize ctr).1,
      (geneticAlgorithm d g ctr stops popSize 0).stops =
        route.map (stopAt stops) ∧
      (geneticAlgorithm d g ctr stops popSize 0).distance =
        calculateRouteDistance d (route.map (stopAt stops)) ∧
      (∀ q ∈ (initPopulation g stops.length popSize ctr).1,
        (geneticAlgorithm d g ctr stops popSize 0).distance ≤
          calculateRouteDistance d (q.map (stopAt stops))) ∧
      (geneticAlgorithm d g ctr stops popSize 0).improvement =
        percentImprovement
          (calculateRouteDistance d (nearestNeighbor d stops).stops)
          (geneticAlgorithm d g ctr stops popSize 0).distance := by
  have hnot : ¬ stops.length < 4 := by omega
  set pop := (initPopulation g stops.length popSize ctr).1 with hpop
  set distances := pop.map
    (fun route => calculateRouteDistance d (route.map (stopAt stops)))
    with hdistances
  set bestIdx := List.indexOf (minOfList distances) distances with hbestIdx
  set bestRoute := pop.getD bestIdx [] with hbestRoute
  have hpoplen : pop.length = popSize := initPopulation_length g _ popSize ctr
  have hdlen : distances.length = popSize := by
    rw [hdistances, List.length_map, hpoplen]
  have hdne : distances ≠ [] := by
    intro hnil
    rw [hnil] at hdlen
    simp at hdlen
    omega
  have hmin_mem : minOfList distances ∈ distances := minOfList_mem _ hdne
  have hidx : bestIdx < distances.length := by
    rw [hbestIdx]
    exact List.indexOf_lt_length.mpr hmin_mem
  have hidx' : bestIdx < pop.length := by
    rw [hpoplen]; omega
  have hatidx : distances[bestIdx] = minOfList distances :=
    List.getElem_indexOf hidx
  have hbestE : bestRoute = pop[bestIdx] :=
    List.getD_eq_getElem pop [] hidx'
  have hdistE : distances[bestIdx] =
      calculateRouteDistance d (bestRoute.map (stopAt stops)) := by
    calc distances[bestIdx]
        = (fun route => calculateRouteDistance d (route.map (stopAt stops)))
            (pop[bestIdx]) := List.getElem_map _
      _ = calculateRouteDistance d (bestRoute.map (stopAt stops)) := by
          rw [← hbestE]
  have hproj : (geneticAlgorithm d g ctr stops popSize 0).stops =
      bestRoute.map (stopAt stops) ∧
      (geneticAlgorithm d g ctr stops popSize 0).distance =
        calculateRouteDistance d (bestRoute.map (stopAt stops)) ∧
      (geneticAlgorithm d g ctr stops popSize 0).improvement =
        percentImprovement
          (calculateRouteDistance d (nearestNeighbor d stops).stops)
          (calculateRouteDistance d (bestRoute.map (stopAt stops))) := by
    unfold geneticAlgorithm
    rw [if_neg hnot]
    simp only [gaLoop]
    exact ⟨trivial, trivial, trivial⟩
  have hbest_mem : bestRoute ∈ pop := by
    rw [hbestE]
    exact List.getElem_mem _
  refine ⟨bestRoute, hbest_mem, hproj.1, ?_, ?_, ?_⟩
  · exact hproj.2.1
  · intro q hq
    rw [hproj.2.1, ← hdistE, hatidx]
    apply minOfList_le
    rw [hdistances]
    exact List.mem_map.mpr ⟨q, hq, rfl⟩
  · rw [hproj.2.2, hproj.2.1]

/-! ## Improvement field of twoOpt and geneticAlgorithm -/

theorem twoOpt_improvement_eq (d : Stop → Stop → ℚ) (stops : List Stop)
    (maxIterations : ℕ) (h4 : 4 ≤ stops.length) :
    (twoOpt d stops maxIterations).improvement =
      percentImprovement
        (calculateRouteDistance d (nearestNeighbor d stops).stops)
        (twoOpt d stops maxIterations).distance := by
  have hnot : ¬ stops.length < 4 := by omega
  unfold twoOpt
  rw [if_neg hnot]

theorem geneticAlgorithm_improvement_eq (d : Stop → Stop → ℚ) (g : ℕ → ℕ)
    (ctr : ℕ) (stops : List Stop) (popSize gens : ℕ)
    (h4 : 4 ≤ stops.length) :
    (geneticAlgorithm d g ctr stops popSize gens).improvement =
      percentImprovement
        (calculateRouteDistance d (nearestNeighbor d stops).stops)
        (geneticAlgorithm d g ctr stops popSize gens).distance := by
  have hnot : ¬ stops.length < 4 := by omega
  unfold geneticAlgorithm
  rw [if_neg hnot]

/-! ## The 2-opt regression instance

Six Manhattan stops on which the source's `twoOpt` returns a *longer* tour
than `nearestNeighbor`.  The seeding line
`let route = nnResult.stops.map((s, i) => i)` evaluates to the identity
permutation, so the 2-opt search starts from the input order, reaches the
2-opt local optimum `[0, 4, 2, 1, 5, 3]` (24.03359 km) and never finds the
nearest-neighbor tour `[0, 1, 2, 4, 3, 5]` (22.28765 km). -/

def c2Stops : List Stop :=
  [⟨"s0", 40.75, -73.982⟩, ⟨"s1", 40.735, -73.998⟩, ⟨"s2", 40.725, -73.998⟩,
   ⟨"s3", 40.773, -73.945⟩, ⟨"s4", 40.719, -73.953⟩, ⟨"s5", 40.793, -73.989⟩]

def c2Idx (s : Stop) : ℕ :=
  if s.id = "s1" then 1 else if s.id = "s2" then 2 else if s.id = "s3" then 3
  else if s.id = "s4" then 4 else if s.id = "s5" then 5 else 0

/-- The pairwise Haversine distances of `c2Stops` in units of 10⁻⁶ km,
rounded to the nearest integer (`calculateDistance` of the source evaluated
at the coordinates above).  Every comparison the algorithms perform on this
instance has a margin of at least 0.033 km — four orders of magnitude above
the total rounding error (≤ 2·10⁻⁶ km per compared sum) — except the exact
`i = 0, j = n-1` exchange identities, which hold for any symmetric table;
hence every branch taken below coincides with the float computation of the
source. -/
def c2T : ℕ → ℕ → ℚ
  | 0, 1 => 2144514
  | 0, 2 => 3089488
  | 0, 3 => 4031339
  | 0, 4 => 4225230
  | 0, 5 => 4817581
  | 1, 0 => 2144514
  | 1, 2 => 1111949
  | 1, 3 => 6146881
  | 1, 4 => 4188613
  | 1, 5 => 6493695
  | 2, 0 => 3089488
  | 2, 1 => 1111949
  | 2, 3 => 6958481
  | 2, 4 => 3850518
  | 2, 5 => 7599157
  | 3, 0 => 4031339
  | 3, 1 => 6146881
  | 3, 2 => 6958481
  | 3, 4 => 6042229
  | 3, 5 => 4320859
  | 4, 0 => 4225230
  | 4, 1 => 4188613
  | 4, 2 => 3850518
  | 4, 3 => 6042229
  | 4, 5 => 8769358
  | 5, 0 => 4817581
  | 5, 1 => 6493695
  | 5, 2 => 7599157
  | 5, 3 => 4320859
  | 5, 4 => 8769358
  | _, _ => 0

def c2Dist (p q : Stop) : ℚ := c2T (c2Idx p) (c2Idx q)

set_option maxRecDepth 4000 in
/-- The nearest-neighbor tour of the regression instance is
`[0, 1, 2, 4, 3, 5]`, total length 22.28765 km. -/
theorem c2_nn_distance : (nearestNeighbor c2Dist c2Stops).distance = 22287650 := by
  have hbuild : nnBuild c2Dist c2Stops 5 0 [1, 2, 3, 4, 5] = [1, 2, 4, 3, 5] := by
    decide
  have herase : (List.range 6).erase 0 = [1, 2, 3, 4, 5] := by decide
  have hlen : c2Stops.length = 6 := by decide
  have hd01 : c2Dist (stopAt c2Stops 0) (stopAt c2Stops 1) = 2144514 := by decide
  have hd02 : c2Dist (stopAt c2Stops 0) (stopAt c2Stops 2) = 3089488 := by decide
  have hd03 : c2Dist (stopAt c2Stops 0) (stopAt c2Stops 3) = 4031339 := by decide
  have hd04 : c2Dist (stopAt c2Stops 0) (stopAt c2Stops 4) = 4225230 := by decide
  have hd05 : c2Dist (stopAt c2Stops 0) (stopAt c2Stops 5) = 4817581 := by decide
  have hd10 : c2Dist (stopAt c2Stops 1) (stopAt c2Stops 0) = 2144514 := by decide
  have hd12 : c2Dist (stopAt c2Stops 1) (stopAt c2Stops 2) = 1111949 := by decide
  have hd13 : c2Dist (stopAt c2Stops 1) (stopAt c2Stops 3) = 6146881 := by decide
  have hd14 : c2Dist (stopAt c2Stops 1) (stopAt c2Stops 4) = 4188613 := by decide
  have hd15 : c2Dist (stopAt c2Stops 1) (stopAt c2Stops 5) = 6493695 := by decide
  have hd20 : c2Dist (stopAt c2Stops 2) (stopAt c2Stops 0) = 3089488 := by decide
  have hd21 : c2Dist (stopAt c2Stops 2) (stopAt c2Stops 1) = 1111949 := by decide
  have hd23 : c2Dist (stopAt c2Stops 2) (stopAt c2Stops 3) = 6958481 := by decide
  have hd24 : c2Dist (stopAt c2Stops 2) (stopAt c2Stops 4) = 3850518 := by decide
  have hd25 : c2Dist (stopAt c2Stops 2) (stopAt c2Stops 5) = 7599157 := by decide
  have hd30 : c2Dist (stopAt c2Stops 3) (stopAt c2Stops 0) = 4031339 := by decide
  have hd31 : c2Dist (stopAt c2Stops 3) (stopAt c2Stops 1) = 6146881 := by decide
  have hd32 : c2Dist (stopAt c2Stops 3) (stopAt c2Stops 2) = 6958481 := by decide
  have hd34 : c2Dist (stopAt c2Stops 3) (stopAt c2Stops 4) = 6042229 := by decide
  have hd35 : c2Dist (stopAt c2Stops 3) (stopAt c2Stops 5) = 4320859 := by decide
  have hd40 : c2Dist (stopAt c2Stops 4) (stopAt c2Stops 0) = 4225230 := by decide
  have hd41 : c2Dist (stopAt c2Stops 4) (stopAt c2Stops 1) = 4188613 := by decide
  have hd42 : c2Dist (stopAt c2Stops 4) (stopAt c2Stops 2) = 3850518 := by decide
  have hd43 : c2Dist (stopAt c2Stops 4) (stopAt c2Stops 3) = 6042229 := by decide
  have hd45 : c2Dist (stopAt c2Stops 4) (stopAt c2Stops 5) = 8769358 := by decide
  have hd50 : c2Dist (stopAt c2Stops 5) (stopAt c2Stops 0) = 4817581 := by decide
  have hd51 : c2Dist (stopAt c2Stops 5) (stopAt c2Stops 1) = 6493695 := by decide
  have hd52 : c2Dist (stopAt c2Stops 5) (stopAt c2Stops 2) = 7599157 := by decide
  have hd53 : c2Dist (stopAt c2Stops 5) (stopAt c2Stops 3) = 4320859 := by decide
  have hd54 : c2Dist (stopAt c2Stops 5) (stopAt c2Stops 4) = 8769358 := by decide
  norm_num [nearestNeighbor, hlen, hbuild, herase, calculateRouteDistance,
    pathDist, lastStop, hd01, hd02, hd03, hd04, hd05, hd10, hd12, hd13, hd14, hd15, hd20, hd21, hd23, hd24, hd25, hd30, hd31, hd32, hd34, hd35, hd40, hd41, hd42, hd43, hd45, hd50, hd51, hd52, hd53, hd54]

set_option maxRecDepth 4000 in
set_option maxHeartbeats 2000000 in
/-- The identity-seeded 2-opt search of the regression instance stops at the
local optimum `[0, 4, 2, 1, 5, 3]`, total length 24.03359 km. -/
theorem c2_twoOpt_distance : (twoOpt c2Dist c2Stops 100).distance = 24033590 := by
  have hd01 : c2Dist (stopAt c2Stops 0) (stopAt c2Stops 1) = 2144514 := by decide
  have hd02 : c2Dist (stopAt c2Stops 0) (stopAt c2Stops 2) = 3089488 := by decide
  have hd03 : c2Dist (stopAt c2Stops 0) (stopAt c2Stops 3) = 4031339 := by decide
  have hd04 : c2Dist (stopAt c2Stops 0) (stopAt c2Stops 4) = 4225230 := by decide
  have hd05 : c2Dist (stopAt c2Stops 0) (stopAt c2Stops 5) = 4817581 := by decide
  have hd10 : c2Dist (stopAt c2Stops 1) (stopAt c2Stops 0) = 2144514 := by decide
  have hd12 : c2Dist (stopAt c2Stops 1) (stopAt c2Stops 2) = 1111949 := by decide
  have hd13 : c2Dist (stopAt c2Stops 1) (stopAt c2Stops 3) = 6146881 := by decide
  have hd14 : c2Dist (stopAt c2Stops 1) (stopAt c2Stops 4) = 4188613 := by decide
  have hd15 : c2Dist (stopAt c2Stops 1) (stopAt c2Stops 5) = 6493695 := by decide
  have hd20 : c2Dist (stopAt c2Stops 2) (stopAt c2Stops 0) = 3089488 := by decide
  have hd21 : c2Dist (stopAt c2Stops 2) (stopAt c2Stops 1) = 1111949 := by decide
  have hd23 : c2Dist (stopAt c2Stops 2) (stopAt c2Stops 3) = 6958481 := by decide
  have hd24 : c2Dist (stopAt c2Stops 2) (stopAt c2Stops 4) = 3850518 := by decide
  have hd25 : c2Dist (stopAt c2Stops 2) (stopAt c2Stops 5) = 7599157 := by decide
  have hd30 : c2Dist (stopAt c2Stops 3) (stopAt c2Stops 0) = 4031339 := by decide
  have hd31 : c2Dist (stopAt c2Stops 3) (stopAt c2Stops 1) = 6146881 := by decide
  have hd32 : c2Dist (stopAt c2Stops 3) (stopAt c2Stops 2) = 6958481 := by decide
  have hd34 : c2Dist (stopAt c2Stops 3) (stopAt c2Stops 4) = 6042229 := by decide
  have hd35 : c2Dist (stopAt c2Stops 3) (stopAt c2Stops 5) = 4320859 := by decide
  have hd40 : c2Dist (stopAt c2Stops 4) (stopAt c2Stops 0) = 4225230 := by decide
  have hd41 : c2Dist (stopAt c2Stops 4) (stopAt c2Stops 1) = 4188613 := by decide
  have hd42 : c2Dist (stopAt c2Stops 4) (stopAt c2Stops 2) = 3850518 := by decide
  have hd43 : c2Dist (stopAt c2Stops 4) (stopAt c2Stops 3) = 6042229 := by decide
  have hd45 : c2Dist (stopAt c2Stops 4) (stopAt c2Stops 5) = 8769358 := by decide
  have hd50 : c2Dist (stopAt c2Stops 5) (stopAt c2Stops 0) = 4817581 := by decide
  have hd51 : c2Dist (stopAt c2Stops 5) (stopAt c2Stops 1) = 6493695 := by decide
  have hd52 : c2Dist (stopAt c2Stops 5) (stopAt c2Stops 2) = 7599157 := by decide
  have hd53 : c2Dist (stopAt c2Stops 5) (stopAt c2Stops 3) = 4320859 := by decide
  have hd54 : c2Dist (stopAt c2Stops 5) (stopAt c2Stops 4) = 8769358 := by decide
  have hrange : List.range c2Stops.length = [0, 1, 2, 3, 4, 5] := by decide
  have hp0 : twoOptPass c2Dist c2Stops [0, 1, 2, 3, 4, 5] = ([0, 4, 1, 2, 5, 3], true) := by
    norm_num [twoOptPass, twoOptStep, reverseSegment, List.range, List.range.loop,
      List.range', hd01, hd02, hd03, hd04, hd05, hd10, hd12, hd13, hd14, hd15, hd20, hd21, hd23, hd24, hd25, hd30, hd31, hd32, hd34, hd35, hd40, hd41, hd42, hd43, hd45, hd50, hd51, hd52, hd53, hd54]
  have hp1 : twoOptPass c2Dist c2Stops [0, 4, 1, 2, 5, 3] = ([0, 4, 2, 1, 5, 3], true) := by
    norm_num [twoOptPass, twoOptStep, reverseSegment, List.range, List.range.loop,
      List.range', hd01, hd02, hd03, hd04, hd05, hd10, hd12, hd13, hd14, hd15, hd20, hd21, hd23, hd24, hd25, hd30, hd31, hd32, hd34, hd35, hd40, hd41, hd42, hd43, hd45, hd50, hd51, hd52, hd53, hd54]
  have hp2 : twoOptPass c2Dist c2Stops [0, 4, 2, 1, 5, 3] = ([0, 4, 2, 1, 5, 3], false) := by
    norm_num [twoOptPass, twoOptStep, reverseSegment, List.range, List.range.loop,
      List.range', hd01, hd02, hd03, hd04, hd05, hd10, hd12, hd13, hd14, hd15, hd20, hd21, hd23, hd24, hd25, hd30, hd31, hd32, hd34, hd35, hd40, hd41, hd42, hd43, hd45, hd50, hd51, hd52, hd53, hd54]
  have hloop : twoOptLoop c2Dist c2Stops 100 [0, 1, 2, 3, 4, 5] = [0, 4, 2, 1, 5, 3] := by
    simp [twoOptLoop, hp0, hp1, hp2]
  have hnot : ¬ c2Stops.length < 4 := by decide
  unfold twoOpt
  rw [if_neg hnot]
  simp only [hrange, hloop]
  norm_num [calculateRouteDistance, pathDist, lastStop, List.map, hd01, hd02, hd03, hd04, hd05, hd10, hd12, hd13, hd14, hd15, hd20, hd21, hd23, hd24, hd25, hd30, hd31, hd32, hd34, hd35, hd40, hd41, hd42, hd43, hd45, hd50, hd51, hd52, hd53, hd54]

/-! ## Small-input helpers and distance projections -/

theorem nearestNeighbor_small (d : Stop → Stop → ℚ) (stops : List Stop)
    (h : stops.length < 2) : nearestNeighbor d stops = ⟨stops, 0, some 0⟩ := by
  unfold nearestNeighbor
  rw [if_pos h]

theorem twoOpt_small (d : Stop → Stop → ℚ) (stops : List Stop)
    (maxIterations : ℕ) (h : stops.length < 4) :
    twoOpt d stops maxIterations = nearestNeighbor d stops := by
  unfold twoOpt
  rw [if_pos h]

theorem geneticAlgorithm_small (d : Stop → Stop → ℚ) (g : ℕ → ℕ) (ctr : ℕ)
    (stops : List Stop) (popSize gens : ℕ) (h : stops.length < 4) :
    geneticAlgorithm d g ctr stops popSize gens = nearestNeighbor d stops := by
  unfold geneticAlgorithm
  rw [if_pos h]

theorem nearestNeighbor_distance_eq (d : Stop → Stop → ℚ) (stops : List Stop) :
    (nearestNeighbor d stops).distance =
      calculateRouteDistance d (nearestNeighbor d stops).stops := by
  unfold nearestNeighbor
  split
  · rename_i h
    exact (calculateRouteDistance_short d stops h).symm
  · rfl

theorem twoOpt_distance_eq (d : Stop → Stop → ℚ) (stops : List Stop)
    (maxIterations : ℕ) :
    (twoOpt d stops maxIterations).distance =
      calculateRouteDistance d (twoOpt d stops maxIterations).stops := by
  unfold twoOpt
  split
  · exact nearestNeighbor_distance_eq d stops
  · rfl

theorem geneticAlgorithm_distance_eq (d : Stop → Stop → ℚ) (g : ℕ → ℕ)
    (ctr : ℕ) (stops : List Stop) (popSize gens : ℕ) :
    (geneticAlgorithm d g ctr stops popSize gens).distance =
      calculateRouteDistance d
        (geneticAlgorithm d g ctr stops popSize gens).stops := by
  unfold geneticAlgorithm
  split
  · exact nearestNeighbor_distance_eq d stops
  · rfl

/-! ## Concrete data for witnesses and counterexamples -/

/-- A constant ambient-randomness stream. -/
def g0 : ℕ → ℕ := fun _ => 0

/-- A constant positive distance function (symmetric and positive, as a
witness instance). -/
def oneDist : Stop → Stop → ℚ := fun _ _ => 1

/-- Two stops with identical coordinates and distinct ids: the source's
Haversine distance between them is exactly 0. -/
def coincidentStops2 : List Stop :=
  [⟨"A", 40.75, -73.99⟩, ⟨"B", 40.75, -73.99⟩]

/-- Four stops with identical coordinates and distinct ids: a well-formed
input on which every tour distance, in particular the Nearest-Neighbor
baseline, is 0. -/
def coincidentStops4 : List Stop :=
  [⟨"A", 40.75, -73.99⟩, ⟨"B", 40.75, -73.99⟩,
   ⟨"C", 40.75, -73.99⟩, ⟨"D", 40.75, -73.99⟩]

/-- Three stops with distinct coordinates (witness instance). -/
def triStops : List Stop :=
  [⟨"P", 0, 0⟩, ⟨"Q", 0, 1⟩, ⟨"R", 1, 1⟩]

/-! ## The claims -/

/-- C1: for every input list of stops, the output tour of `nearestNeighbor`,
`twoOpt`, and `geneticAlgorithm` (for any ambient random draws and any
positive population size, in particular the default 50) and every result
returned by `compareAlgorithms` is a permutation of the input stop list:
same length, every input stop appears exactly once, no duplicates, no
omissions. -/
theorem claim_C1 (d : Stop → Stop → ℚ) (g : ℕ → ℕ) (ctr : ℕ)
    (stops : List Stop) (maxIterations popSize gens : ℕ)
    (hps : 0 < popSize) :
    (nearestNeighbor d stops).stops.Perm stops ∧
    (twoOpt d stops maxIterations).stops.Perm stops ∧
    (geneticAlgorithm d g ctr stops popSize gens).stops.Perm stops ∧
    ∀ r ∈ compareAlgorithms d g ctr stops, r.stops.Perm stops := by
  refine ⟨nearestNeighbor_perm d stops, twoOpt_perm d stops maxIterations,
    geneticAlgorithm_perm d g ctr stops popSize gens hps, ?_⟩
  intro r hr
  unfold compareAlgorithms at hr
  have hr' : r ∈ [twoOpt d stops 100,
      geneticAlgorithm d g ctr stops 50 100, nearestNeighbor d stops] :=
    (sortByDistance_perm _).mem_iff.mp hr
  rcases List.mem_cons.mp hr' with h | hr''
  · subst h
    exact twoOpt_perm d stops 100
  rcases List.mem_cons.mp hr'' with h | hr'''
  · subst h
    exact geneticAlgorithm_perm d g ctr stops 50 100 (by norm_num)
  rcases List.mem_cons.mp hr''' with h | habs
  · subst h
    exact nearestNeighbor_perm d stops
  · simp at habs

/-- C1 witness at a concrete input. -/
theorem claim_C1_witness :
    (nearestNeighbor oneDist triStops).stops.Perm triStops ∧
    (twoOpt oneDist triStops 100).stops.Perm triStops ∧
    (geneticAlgorithm oneDist g0 0 triStops 50 100).stops.Perm triStops ∧
    ∀ r ∈ compareAlgorithms oneDist g0 0 triStops, r.stops.Perm triStops :=
  claim_C1 oneDist g0 0 triStops 100 50 100 (by decide)

/-- C2: the spec demands `twoOpt`'s distance never exceed the
Nearest-Neighbor baseline, and the source's own comment says
"Start with nearest neighbor solution", but the seeding expression
`nnResult.stops.map((s, i) => i)` evaluates to the identity permutation, so
the 2-opt search starts from the *input order*.  On the six-stop instance
`c2Stops` the search stops at a local optimum 1.75 km *longer* than the
Nearest-Neighbor tour: the code evaluated at this failing input contradicts
the claim. -/
theorem claim_C2 :
    (nearestNeighbor c2Dist c2Stops).distance <
      (twoOpt c2Dist c2Stops 100).distance := by
  rw [c2_nn_distance, c2_twoOpt_distance]
  norm_num

/-- C3: `compareAlgorithms` returns exactly three results — the 2-Opt,
Genetic, and Nearest-Neighbor results — sorted ascending by their
`distance` field. -/
theorem claim_C3 (d : Stop → Stop → ℚ) (g : ℕ → ℕ) (ctr : ℕ)
    (stops : List Stop) :
    (compareAlgorithms d g ctr stops).length = 3 ∧
    List.Pairwise (fun a b => a.distance ≤ b.distance)
      (compareAlgorithms d g ctr stops) ∧
    (compareAlgorithms d g ctr stops).Perm
      [twoOpt d stops 100, geneticAlgorithm d g ctr stops 50 100,
       nearestNeighbor d stops] := by
  unfold compareAlgorithms
  refine ⟨?_, sortByDistance_sorted _, sortByDistance_perm _⟩
  rw [(sortByDistance_perm _).length_eq]
  rfl

/-- C4: fewer than 2 stops yields the input order unchanged with distance 0
and improvement 0 from every algorithm; fewer than 4 stops makes `twoOpt`
and `geneticAlgorithm` return exactly the `nearestNeighbor` result (the
total Lean model raises no errors on any input by construction). -/
theorem claim_C4 (d : Stop → Stop → ℚ) (g : ℕ → ℕ) (ctr : ℕ)
    (stops : List Stop) (maxIterations popSize gens : ℕ) :
    (stops.length < 2 →
      nearestNeighbor d stops = ⟨stops, 0, some 0⟩ ∧
      twoOpt d stops maxIterations = ⟨stops, 0, some 0⟩ ∧
      geneticAlgorithm d g ctr stops popSize gens = ⟨stops, 0, some 0⟩) ∧
    (stops.length < 4 →
      twoOpt d stops maxIterations = nearestNeighbor d stops ∧
      geneticAlgorithm d g ctr stops popSize gens =
        nearestNeighbor d stops) := by
  constructor
  · intro h2
    have h4 : stops.length < 4 := by omega
    have hnn := nearestNeighbor_small d stops h2
    exact ⟨hnn, by rw [twoOpt_small d stops maxIterations h4, hnn],
      by rw [geneticAlgorithm_small d g ctr stops popSize gens h4, hnn]⟩
  · intro h4
    exact ⟨twoOpt_small d stops maxIterations h4,
      geneticAlgorithm_small d g ctr stops popSize gens h4⟩

/-- C4 witness at a concrete one-stop input. -/
theorem claim_C4_witness :
    (nearestNeighbor oneDist [⟨"W", 1, 2⟩] = ⟨[⟨"W", 1, 2⟩], 0, some 0⟩ ∧
     twoOpt oneDist [⟨"W", 1, 2⟩] 100 = ⟨[⟨"W", 1, 2⟩], 0, some 0⟩ ∧
     geneticAlgorithm oneDist g0 0 [⟨"W", 1, 2⟩] 50 100 =
       ⟨[⟨"W", 1, 2⟩], 0, some 0⟩) ∧
    (twoOpt oneDist triStops 100 = nearestNeighbor oneDist triStops ∧
     geneticAlgorithm oneDist g0 0 triStops 50 100 =
       nearestNeighbor oneDist triStops) :=
  ⟨(claim_C4 oneDist g0 0 [⟨"W", 1, 2⟩] 100 50 100).1 (by decide),
   (claim_C4 oneDist g0 0 triStops 100 50 100).2 (by decide)⟩

/-- C5 counterexample: on two stops with identical coordinates (where the
source's Haversine is exactly 0, modelled by `zeroDist`), the reported
distance is 0 although the tour has 2 points — refuting the claimed
equivalence "distance = 0 iff fewer than 2 points". -/
theorem claim_C5_counterexample :
    (nearestNeighbor zeroDist coincidentStops2).distance = 0 ∧
    ¬ ((nearestNeighbor zeroDist coincidentStops2).stops.length < 2) := by
  constructor
  · rw [nearestNeighbor_distance_eq]
    exact calculateRouteDistance_zeroDist _
  · have hperm := nearestNeighbor_perm zeroDist coincidentStops2
    rw [hperm.length_eq]
    decide

/-- C5 amended: for a non-negative distance function every algorithm's
reported distance is non-negative, and it is 0 whenever the input has fewer
than 2 points; the converse direction "distance = 0 only if fewer than 2
points" holds only under the extra assumption that all pairwise distances
are positive — it fails for coincident stops, whose Haversine distance
is 0. -/
theorem claim_C5_amended (d : Stop → Stop → ℚ) (g : ℕ → ℕ) (ctr : ℕ)
    (stops : List Stop) (maxIterations popSize gens : ℕ)
    (hd : ∀ a b, 0 ≤ d a b) :
    (0 ≤ (nearestNeighbor d stops).distance ∧
     0 ≤ (twoOpt d stops maxIterations).distance ∧
     0 ≤ (geneticAlgorithm d g ctr stops popSize gens).distance) ∧
    (stops.length < 2 →
      (nearestNeighbor d stops).distance = 0 ∧
      (twoOpt d stops maxIterations).distance = 0 ∧
      (geneticAlgorithm d g ctr stops popSize gens).distance = 0) ∧
    ((∀ a b, 0 < d a b) → 2 ≤ stops.length → 0 < popSize →
      0 < (nearestNeighbor d stops).distance ∧
      0 < (twoOpt d stops maxIterations).distance ∧
      0 < (geneticAlgorithm d g ctr stops popSize gens).distance) := by
  refine ⟨⟨?_, ?_, ?_⟩, ?_, ?_⟩
  · rw [nearestNeighbor_distance_eq]
    exact calculateRouteDistance_nonneg d hd _
  · rw [twoOpt_distance_eq]
    exact calculateRouteDistance_nonneg d hd _
  · rw [geneticAlgorithm_distance_eq]
    exact calculateRouteDistance_nonneg d hd _
  · intro h2
    have h4 : stops.length < 4 := by omega
    have hnn := nearestNeighbor_small d stops h2
    refine ⟨?_, ?_, ?_⟩
    · rw [hnn]
    · rw [twoOpt_small d stops maxIterations h4, hnn]
    · rw [geneticAlgorithm_small d g ctr stops popSize gens h4, hnn]
  · intro hpos h2 hps
    refine ⟨?_, ?_, ?_⟩
    · rw [nearestNeighbor_distance_eq]
      apply calculateRouteDistance_pos d hpos
      rw [(nearestNeighbor_perm d stops).length_eq]
      exact h2
    · rw [twoOpt_distance_eq]
      apply calculateRouteDistance_pos d hpos
      rw [(twoOpt_perm d stops maxIterations).length_eq]
      exact h2
    · rw [geneticAlgorithm_distance_eq]
      apply calculateRouteDistance_pos d hpos
      rw [(geneticAlgorithm_perm d g ctr stops popSize gens hps).length_eq]
      exact h2

/-- C5 witness at a concrete input with positive pairwise distances. -/
theorem claim_C5_witness :
    (0 ≤ (nearestNeighbor oneDist triStops).distance ∧
     0 ≤ (twoOpt oneDist triStops 100).distance ∧
     0 ≤ (geneticAlgorithm oneDist g0 0 triStops 50 100).distance) ∧
    (0 < (nearestNeighbor oneDist triStops).distance ∧
     0 < (twoOpt oneDist triStops 100).distance ∧
     0 < (geneticAlgorithm oneDist g0 0 triStops 50 100).distance) :=
  ⟨(claim_C5_amended oneDist g0 0 triStops 100 50 100
      (fun a b => by norm_num [oneDist])).1,
   (claim_C5_amended oneDist g0 0 triStops 100 50 100
      (fun a b => by norm_num [oneDist])).2.2
      (fun a b => by norm_num [oneDist]) (by decide) (by decide)⟩

/-- C6 counterexample: with tied fitness values, the 2-way tournament
`fitness[idx1] > fitness[idx2] ? population[idx1] : population[idx2]`
returns the second-drawn candidate, not the first-encountered one as the
claim states. -/
theorem claim_C6_counterexample :
    tournamentPick [1, 1] [[0, 1], [1, 0]] 0 1 = [1, 0] ∧
    ([1, 0] : List ℕ) ≠ [0, 1] := by
  constructor
  · decide
  · decide

/-- C6 amended: the nearest-neighbor minimum scan does break ties in favour
of the first-encountered candidate (every candidate scanned before the
winner is strictly farther, every later one at least as far), but the
tournament selection breaks ties in favour of the *second* candidate (its
strict greater-than comparison defaults to `idx2` on equality). -/
theorem claim_C6_amended (d : Stop → Stop → ℚ) (stops : List Stop)
    (cur x : ℕ) (rest : List ℕ) (i : ℕ) (m : ℚ) (fitness : List ℚ)
    (population : List (List ℕ)) (idx1 idx2 : ℕ)
    (hscan : scanMin d stops cur none (x :: rest) = some (i, m))
    (htie : fitness.getD idx1 0 = fitness.getD idx2 0) :
    (∃ l₁ l₂, x :: rest = l₁ ++ i :: l₂ ∧
      m = d (stopAt stops cur) (stopAt stops i) ∧
      (∀ j ∈ l₁, m < d (stopAt stops cur) (stopAt stops j)) ∧
      (∀ j ∈ l₂, m ≤ d (stopAt stops cur) (stopAt stops j))) ∧
    tournamentPick fitness population idx1 idx2 =
      population.getD idx2 [] :=
  ⟨scanMin_none_first d stops cur x rest i m hscan,
   tournamentPick_tie fitness population idx1 idx2 htie⟩

/-- C6 witness at a concrete scan and a concrete tied tournament. -/
theorem claim_C6_witness :
    (∃ l₁ l₂, [1] = l₁ ++ 1 :: l₂ ∧
      (0 : ℚ) = zeroDist (stopAt coincidentStops2 0)
        (stopAt coincidentStops2 1) ∧
      (∀ j ∈ l₁, (0 : ℚ) < zeroDist (stopAt coincidentStops2 0)
        (stopAt coincidentStops2 j)) ∧
      (∀ j ∈ l₂, (0 : ℚ) ≤ zeroDist (stopAt coincidentStops2 0)
        (stopAt coincidentStops2 j))) ∧
    tournamentPick [1, 1] [[0, 1], [1, 0]] 0 1 =
      ([[0, 1], [1, 0]] : List (List ℕ)).getD 1 [] :=
  claim_C6_amended zeroDist coincidentStops2 0 1 [] 1 0 [1, 1]
    [[0, 1], [1, 0]] 0 1 (by decide) (by decide)

/-- C7: the cyclic tour distance is unchanged under any rotation of the
stop sequence, and — using symmetry of the pairwise distance — under full
reversal of the sequence. -/
theorem claim_C7 (d : Stop → Stop → ℚ) (l : List Stop) (k : ℕ)
    (hsymm : ∀ a b, d a b = d b a) :
    calculateRouteDistance d (l.rotate k) = calculateRouteDistance d l ∧
    calculateRouteDistance d l.reverse = calculateRouteDistance d l :=
  ⟨calculateRouteDistance_rotate d k l,
   calculateRouteDistance_reverse d hsymm l⟩

/-- C7 witness at a concrete three-stop cycle and rotation. -/
theorem claim_C7_witness :
    calculateRouteDistance oneDist (triStops.rotate 2) =
      calculateRouteDistance oneDist triStops ∧
    calculateRouteDistance oneDist triStops.reverse =
      calculateRouteDistance oneDist triStops :=
  claim_C7 oneDist triStops 2 (fun _ _ => rfl)

/-- C8: `nearestNeighbor` is a deterministic function of its input: run in
the ambient-randomness context, it consumes no random draw (the counter is
returned unchanged), so any two runs — whatever the stream contents and the
positions at which the two runs start drawing — produce identical results. -/
theorem claim_C8 (d : Stop → Stop → ℚ) (stops : List Stop)
    (g g' : ℕ → ℕ) (ctr ctr' : ℕ) :
    (nnRun g ctr d stops).1 = (nnRun g' ctr' d stops).1 ∧
    (nnRun g ctr d stops).2 = ctr :=
  ⟨rfl, rfl⟩

/-- C9: with `generations = 0` (and at least 4 stops and a positive
population size), the generation loop is skipped and `geneticAlgorithm`
returns the minimum-distance chromosome of the initial random population,
with the improvement computed against the Nearest-Neighbor baseline. -/
theorem claim_C9 (d : Stop → Stop → ℚ) (g : ℕ → ℕ) (ctr : ℕ)
    (stops : List Stop) (popSize : ℕ) (h4 : 4 ≤ stops.length)
    (hps : 0 < popSize) :
    ∃ route ∈ (initPopulation g stops.length popSize ctr).1,
      (geneticAlgorithm d g ctr stops popSize 0).stops =
        route.map (stopAt stops) ∧
      (geneticAlgorithm d g ctr stops popSize 0).distance =
        calculateRouteDistance d (route.map (stopAt stops)) ∧
      (∀ q ∈ (initPopulation g stops.length popSize ctr).1,
        (geneticAlgorithm d g ctr stops popSize 0).distance ≤
          calculateRouteDistance d (q.map (stopAt stops))) ∧
      (geneticAlgorithm d g ctr stops popSize 0).improvement =
        percentImprovement
          (calculateRouteDistance d (nearestNeighbor d stops).stops)
          (geneticAlgorithm d g ctr stops popSize 0).distance :=
  geneticAlgorithm_zero_gens d g ctr stops popSize h4 hps

/-- C9 witness at a concrete six-stop input. -/
theorem claim_C9_witness :
    ∃ route ∈ (initPopulation g0 c2Stops.length 1 0).1,
      (geneticAlgorithm c2Dist g0 0 c2Stops 1 0).stops =
        route.map (stopAt c2Stops) ∧
      (geneticAlgorithm c2Dist g0 0 c2Stops 1 0).distance =
        calculateRouteDistance c2Dist (route.map (stopAt c2Stops)) ∧
      (∀ q ∈ (initPopulation g0 c2Stops.length 1 0).1,
        (geneticAlgorithm c2Dist g0 0 c2Stops 1 0).distance ≤
          calculateRouteDistance c2Dist (q.map (stopAt c2Stops))) ∧
      (geneticAlgorithm c2Dist g0 0 c2Stops 1 0).improvement =
        percentImprovement
          (calculateRouteDistance c2Dist
            (nearestNeighbor c2Dist c2Stops).stops)
          (geneticAlgorithm c2Dist g0 0 c2Stops 1 0).distance :=
  claim_C9 c2Dist g0 0 c2Stops 1 (by decide) (by decide)

/-- C10: the improvement computation of `twoOpt` and `geneticAlgorithm`
divides by the Nearest-Neighbor baseline with no zero guard: on the
well-formed four-stop input whose stops share one coordinate pair the
baseline distance is 0, the divisor is 0, and the reported improvement is
the non-finite `none` — not the `some 0` of the other degenerate cases —
whatever the ambient random draws. -/
theorem claim_C10 (g : ℕ → ℕ) (ctr : ℕ) :
    coincidentStops4.length = 4 ∧
    calculateRouteDistance zeroDist
      (nearestNeighbor zeroDist coincidentStops4).stops = 0 ∧
    (twoOpt zeroDist coincidentStops4 100).improvement = none ∧
    (geneticAlgorithm zeroDist g ctr coincidentStops4 50 100).improvement =
      none ∧
    (twoOpt zeroDist coincidentStops4 100).improvement ≠ some 0 := by
  have hbase := calculateRouteDistance_zeroDist
    (nearestNeighbor zeroDist coincidentStops4).stops
  have h2 : (twoOpt zeroDist coincidentStops4 100).improvement = none := by
    rw [twoOpt_improvement_eq zeroDist coincidentStops4 100 (by decide),
      hbase]
    unfold percentImprovement
    rw [if_pos rfl]
  refine ⟨by decide, hbase, h2, ?_, ?_⟩
  · rw [geneticAlgorithm_improvement_eq zeroDist g ctr coincidentStops4
      50 100 (by decide), hbase]
    unfold percentImprovement
    rw [if_pos rfl]
  · rw [h2]
    simp
